import Mathlib

/-!
Verification of the authentication core of the blogify-platform repository
(`src/utils/jwt.js`, `src/utils/secrets.js`, the auth handler and the Lambda
authorizer), as a shallow embedding in Lean 4.

Embedding conventions:
* JavaScript strings are modelled as `List Char` (the code only manipulates
  ASCII data; where the code converts strings to bytes it uses UTF-8, which is
  modelled explicitly below).
* Dynamic JavaScript values that flow through the token pipeline are modelled
  by `JVal`: null, booleans, numbers (the integers the code actually uses;
  floating point is not modelled), strings, and flat string-keyed objects whose
  values are scalars.  The claim payloads the system builds and parses are
  exactly such flat objects, so the JSON model below covers that fragment
  (nested objects/arrays, float literals and `\uXXXX` escapes are outside it).
* `crypto.createHmac("sha256", secret).update(data).digest("base64url")` is
  modelled by an abstract function parameter `hmac : data → secret → signature`;
  the code treats it as an opaque deterministic function, and so do we.
* `crypto.pbkdf2Sync` is likewise an abstract function parameter.
* `Date.now()` (divided by 1000 and floored) is passed explicitly as `now`.
* Functions that can throw are modelled with `Option`/`Except`; a `try/catch`
  that returns `null` becomes an `Option.none` result.
-/

/-- A scalar JavaScript/JSON value: `null`, a boolean, an (integer) number, or
a string. -/
inductive JScalar where
  | snull : JScalar
  | sbool (b : Bool) : JScalar
  | snum (n : Int) : JScalar
  | sstr (s : List Char) : JScalar
deriving DecidableEq, Repr

/-- A dynamic JavaScript value as it flows through the token pipeline: a scalar
or a flat object mapping string keys to scalar values (the shape of every claim
set this system builds). -/
inductive JVal where
  | jnull : JVal
  | jbool (b : Bool) : JVal
  | jnum (n : Int) : JVal
  | jstr (s : List Char) : JVal
  | jobj (kvs : List (List Char × JScalar)) : JVal
deriving DecidableEq, Repr

/-- JavaScript truthiness of a scalar: `null`, `false`, `0` and `""` are falsy. -/
def scalarTruthy : JScalar → Bool
  | .snull => false
  | .sbool b => b
  | .snum n => decide (n ≠ 0)
  | .sstr s => decide (s ≠ [])

/-- Property read `obj[k]` on a flat object: first matching key (object keys
are unique in JavaScript, so first = only). `none` models `undefined`. -/
def jsGet : List (List Char × JScalar) → List Char → Option JScalar
  | [], _ => none
  | (k', v) :: rest, k => if k' = k then some v else jsGet rest k

/-- The effect of `{ ...obj, k: v }` on the key `k`: if `k` is already present
its value is overwritten in place, otherwise `(k, v)` is appended. -/
def jsSet : List (List Char × JScalar) → List Char → JScalar → List (List Char × JScalar)
  | [], k, v => [(k, v)]
  | (k', v') :: rest, k, v =>
      if k' = k then (k', v) :: rest else (k', v') :: jsSet rest k v

theorem jsGet_jsSet_same (kvs : List (List Char × JScalar)) (k : List Char) (v : JScalar) :
    jsGet (jsSet kvs k v) k = some v := by
  induction kvs with
  | nil => simp [jsSet, jsGet]
  | cons p rest ih =>
      obtain ⟨k', v'⟩ := p
      by_cases h : k' = k
      · simp [jsSet, jsGet, h]
      · simp [jsSet, jsGet, h, ih]

theorem jsGet_jsSet_other (kvs : List (List Char × JScalar)) (k k' : List Char) (v : JScalar)
    (hne : k ≠ k') : jsGet (jsSet kvs k v) k' = jsGet kvs k' := by
  induction kvs with
  | nil => simp [jsSet, jsGet, hne]
  | cons p rest ih =>
      obtain ⟨k0, v0⟩ := p
      by_cases h : k0 = k
      · subst h
        simp [jsSet, jsGet, hne]
      · by_cases h' : k0 = k'
        · simp [jsSet, jsGet, h, h', Ne.symm hne]
        · simp [jsSet, jsGet, h, h', ih]

theorem jsSet_ne_nil (kvs : List (List Char × JScalar)) (k : List Char) (v : JScalar) :
    jsSet kvs k v ≠ [] := by
  cases kvs with
  | nil => simp [jsSet]
  | cons p rest =>
      obtain ⟨k', v'⟩ := p
      by_cases h : k' = k <;> simp [jsSet, h]

/-- `str.split(sep)` for a one-character separator, as JavaScript defines it:
`"".split(sep)` is `[""]`, separators at the ends produce empty components. -/
def splitCh (sep : Char) : List Char → List (List Char)
  | [] => [[]]
  | c :: cs =>
      let r := splitCh sep cs
      if c = sep then [] :: r
      else
        match r with
        | [] => [[c]]
        | h :: t => (c :: h) :: t

theorem splitCh_ne_nil (sep : Char) (cs : List Char) : splitCh sep cs ≠ [] := by
  induction cs with
  | nil => simp [splitCh]
  | cons c cs ih =>
      by_cases h : c = sep
      · simp [splitCh, h]
      · simp only [splitCh, h, if_false]
        cases hr : splitCh sep cs with
        | nil => simp
        | cons hd tl => simp

theorem splitCh_no_sep (sep : Char) (cs : List Char) (h : sep ∉ cs) :
    splitCh sep cs = [cs] := by
  induction cs with
  | nil => simp [splitCh]
  | cons c cs ih =>
      have hc : c ≠ sep := fun hc => h (hc ▸ List.mem_cons_self c cs)
      have hcs : sep ∉ cs := fun hm => h (List.mem_cons_of_mem c hm)
      simp [splitCh, hc, ih hcs]

theorem splitCh_append_sep (sep : Char) (a rest : List Char) (ha : sep ∉ a) :
    splitCh sep (a ++ sep :: rest) = a :: splitCh sep rest := by
  induction a with
  | nil => simp [splitCh]
  | cons c a ih =>
      have hc : c ≠ sep := fun hc => ha (hc ▸ List.mem_cons_self c a)
      have ha' : sep ∉ a := fun hm => ha (List.mem_cons_of_mem c hm)
      have hne := splitCh_ne_nil sep (a ++ sep :: rest)
      simp only [List.cons_append, splitCh, hc, if_false]
      rw [show a.append (sep :: rest) = a ++ sep :: rest from rfl, ih ha']

/-- The dot-joined three-segment token splits back into its three segments. -/
theorem splitCh_three (sep : Char) (a b c : List Char)
    (ha : sep ∉ a) (hb : sep ∉ b) (hc : sep ∉ c) :
    splitCh sep (a ++ sep :: b ++ sep :: c) = [a, b, c] := by
  rw [show a ++ sep :: b ++ sep :: c = a ++ sep :: (b ++ sep :: c) by simp,
    splitCh_append_sep sep a _ ha, splitCh_append_sep sep b _ hb, splitCh_no_sep sep c hc]

/-- The decimal digit character for `d < 10`. -/
def digitChar (d : Nat) : Char := Char.ofNat (48 + d)

/-- Decimal digits of `n`, most significant first (via repeated division, with
a fuel argument so that the definition is structurally recursive and reduces
inside the kernel). -/
def natDigitsAux : Nat → Nat → List Char
  | 0, _ => []
  | fuel + 1, n =>
      if n < 10 then [digitChar n]
      else natDigitsAux fuel (n / 10) ++ [digitChar (n % 10)]

def natDigits (n : Nat) : List Char := natDigitsAux (n + 1) n

/-- The numeric value of a digit string, exactly as `parseInt` folds it up. -/
def digitsVal (ds : List Char) : Nat :=
  ds.foldl (fun acc c => acc * 10 + (c.toNat - 48)) 0

/-- The character list of an integer in decimal, as `JSON.stringify` renders
the integers this system puts in claims. -/
def intChars (n : Int) : List Char :=
  if n < 0 then '-' :: natDigits n.natAbs else natDigits n.toNat

theorem digitChar_toNat (d : Nat) (h : d < 10) : (digitChar d).toNat = 48 + d := by
  interval_cases d <;> decide

theorem digitChar_isDigit (d : Nat) (h : d < 10) : (digitChar d).isDigit = true := by
  interval_cases d <;> decide

theorem digitsVal_append_digit (ds : List Char) (c : Char) :
    digitsVal (ds ++ [c]) = digitsVal ds * 10 + (c.toNat - 48) := by
  simp [digitsVal, List.foldl_append]

theorem natDigitsAux_spec (fuel n : Nat) (h : n < fuel) :
    digitsVal (natDigitsAux fuel n) = n
    ∧ natDigitsAux fuel n ≠ []
    ∧ ∀ c ∈ natDigitsAux fuel n, c.isDigit = true := by
  induction fuel generalizing n with
  | zero => omega
  | succ fuel ih =>
      by_cases hn : n < 10
      · refine ⟨?_, by simp [natDigitsAux, hn], ?_⟩
        · simp [natDigitsAux, hn, digitsVal, digitChar_toNat n hn]
        · intro c hc
          simp [natDigitsAux, hn] at hc
          exact hc ▸ digitChar_isDigit n hn
      · have hdiv : n / 10 < fuel := by
          have := Nat.div_lt_self (by omega : 0 < n) (by omega : 1 < 10)
          omega
        obtain ⟨h1, h2, h3⟩ := ih (n / 10) hdiv
        refine ⟨?_, by simp [natDigitsAux, hn], ?_⟩
        · have hm : n % 10 < 10 := Nat.mod_lt _ (by omega)
          simp [natDigitsAux, hn, digitsVal_append_digit, h1, digitChar_toNat _ hm]
          have := Nat.div_add_mod n 10
          omega
        · intro c hc
          simp only [natDigitsAux, hn, if_false, List.mem_append, List.mem_singleton] at hc
          rcases hc with hc | hc
          · exact h3 c hc
          · exact hc ▸ digitChar_isDigit _ (Nat.mod_lt _ (by omega))

theorem digitsVal_natDigits (n : Nat) : digitsVal (natDigits n) = n :=
  (natDigitsAux_spec (n + 1) n (by omega)).1

theorem natDigits_ne_nil (n : Nat) : natDigits n ≠ [] :=
  (natDigitsAux_spec (n + 1) n (by omega)).2.1

theorem natDigits_all_digit (n : Nat) : ∀ c ∈ natDigits n, c.isDigit = true :=
  (natDigitsAux_spec (n + 1) n (by omega)).2.2

theorem isDigit_toNat_bounds {c : Char} (h : c.isDigit = true) :
    48 ≤ c.toNat ∧ c.toNat ≤ 57 := by
  simp only [Char.isDigit, Bool.and_eq_true, decide_eq_true_eq] at h
  obtain ⟨h1, h2⟩ := h
  exact ⟨h1, h2⟩

/-- `takeWhile isDigit` together with the remainder, the shape used by the
number parser below. -/
def takeDigits : List Char → List Char × List Char
  | [] => ([], [])
  | c :: cs =>
      if c.isDigit then
        let p := takeDigits cs
        (c :: p.1, p.2)
      else ([], c :: cs)

theorem takeDigits_append (ds rest : List Char) (hd : ∀ c ∈ ds, c.isDigit = true)
    (hr : ∀ c, rest.head? = some c → c.isDigit = false) :
    takeDigits (ds ++ rest) = (ds, rest) := by
  induction ds with
  | nil =>
      cases rest with
      | nil => simp [takeDigits]
      | cons c cs => simp [takeDigits, hr c rfl]
  | cons c ds ih =>
      have hc : c.isDigit = true := hd c (List.mem_cons_self c ds)
      have hds : ∀ x ∈ ds, x.isDigit = true := fun x hx => hd x (List.mem_cons_of_mem c hx)
      simp [takeDigits, hc, ih hds]

/-- The standard base64 alphabet, index 0–63. -/
def b64Alphabet : List Char :=
  "ABCDEFGHIJKLMNOPQRSTUVWXYZabcdefghijklmnopqrstuvwxyz0123456789+/".data

/-- The base64 character for a six-bit value. -/
def sixToChar (n : Nat) : Char := b64Alphabet.getD n 'A'

/-- The six-bit value of a base64 character (`none` for `'='` and anything
outside the alphabet). -/
def charToSix (c : Char) : Option Nat := b64Alphabet.indexOf? c

/-- Standard base64 of a byte list (what `Buffer.toString("base64")` yields),
including `'='` padding. -/
def stdB64 : List Nat → List Char
  | [] => []
  | [b1] => [sixToChar (b1 / 4), sixToChar (b1 % 4 * 16), '=', '=']
  | [b1, b2] =>
      [sixToChar (b1 / 4), sixToChar (b1 % 4 * 16 + b2 / 16), sixToChar (b2 % 16 * 4), '=']
  | b1 :: b2 :: b3 :: rest =>
      sixToChar (b1 / 4) :: sixToChar (b1 % 4 * 16 + b2 / 16) ::
        sixToChar (b2 % 16 * 4 + b3 / 64) :: sixToChar (b3 % 64) :: stdB64 rest

/-- Standard base64 decoding of 4-character groups (what
`Buffer.from(str, "base64")` computes on well-formed input); `'='` or an
out-of-alphabet character ends a group early, trailing short groups are
dropped, as Node does. -/
def stdB64Decode : List Char → List Nat
  | c1 :: c2 :: c3 :: c4 :: rest =>
      match charToSix c1, charToSix c2 with
      | some s1, some s2 =>
          (match charToSix c3 with
          | none => [s1 * 4 + s2 / 16]
          | some s3 =>
              match charToSix c4 with
              | none => [s1 * 4 + s2 / 16, s2 % 16 * 16 + s3 / 4]
              | some s4 =>
                  (s1 * 4 + s2 / 16) :: (s2 % 16 * 16 + s3 / 4) ::
                    (s3 % 4 * 64 + s4) :: stdB64Decode rest)
      | _, _ => []
  | _ => []

/-- `.replace(/\+/g, "-").replace(/\//g, "_")` on one character. -/
def toUrlChar (c : Char) : Char :=
  if c = '+' then '-' else if c = '/' then '_' else c

/-- The inverse replacements (dash back to plus, underscore back to slash) on
one character. -/
def fromUrlChar (c : Char) : Char :=
  if c = '-' then '+' else if c = '_' then '/' else c

/-- `base64UrlEncode`s post-processing: URL-safe replacements, then
`.replace(/=/g, "")`. -/
def b64ToUrl (cs : List Char) : List Char :=
  (cs.map toUrlChar).filter (fun c => c ≠ '=')

/-- `base64UrlDecode`s pre-processing: undo the URL-safe replacements, then
re-add `'='` while the length is not a multiple of 4 (the `while` loop). -/
def b64FromUrl (cs : List Char) : List Char :=
  let cs' := cs.map fromUrlChar
  cs' ++ List.replicate ((4 - cs'.length % 4) % 4) '='

/-- Bytes → base64url characters, as `Buffer.from(str).toString("base64")`
followed by the three `replace` calls produces. -/
def base64UrlEncodeB (bytes : List Nat) : List Char := b64ToUrl (stdB64 bytes)

/-- base64url characters → bytes, as `base64UrlDecode`s padding loop followed
by `Buffer.from(str, "base64")` produces. -/
def base64UrlDecodeB (cs : List Char) : List Nat := stdB64Decode (b64FromUrl cs)

theorem getD_mem_or (l : List α) (n : Nat) (d : α) : l.getD n d ∈ l ∨ l.getD n d = d := by
  induction l generalizing n with
  | nil => simp [List.getD]
  | cons x xs ih =>
      cases n with
      | zero => simp [List.getD]
      | succ n =>
          rcases ih n with h | h
        
          · exact Or.inl (List.mem_cons_of_mem x h)
          · exact Or.inr h

theorem sixToChar_ne_dot (n : Nat) : sixToChar n ≠ '.' := by
  have hall : ∀ c ∈ b64Alphabet, c ≠ '.' := by decide
  rcases getD_mem_or b64Alphabet n 'A' with h | h
  · exact hall _ h
  · unfold sixToChar
    rw [h]
    decide

theorem sixToChar_ne_eq (n : Nat) : sixToChar n ≠ '=' := by
  have hall : ∀ c ∈ b64Alphabet, c ≠ '=' := by decide
  rcases getD_mem_or b64Alphabet n 'A' with h | h
  · exact hall _ h
  · unfold sixToChar
    rw [h]
    decide

theorem toUrlChar_ne_dot (c : Char) (h : c ≠ '.') : toUrlChar c ≠ '.' := by
  unfold toUrlChar
  by_cases h1 : c = '+'
  · simp [h1]
  · by_cases h2 : c = '/' <;> simp [h1, h2, h]

/-- Every character of a base64url encoding is distinct from `'.'`: the
three-segment token format is unambiguous. -/
theorem base64UrlEncodeB_ne_dot (bytes : List Nat) :
    ∀ c ∈ base64UrlEncodeB bytes, c ≠ '.' := by
  intro c hc
  unfold base64UrlEncodeB b64ToUrl at hc
  rw [List.mem_filter] at hc
  obtain ⟨hmem, _⟩ := hc
  rw [List.mem_map] at hmem
  obtain ⟨c0, hc0, rfl⟩ := hmem
  have : ∀ bs, ∀ x ∈ stdB64 bs, x = '=' ∨ ∃ n, x = sixToChar n := by
    intro bs
    induction bs using stdB64.induct with
    | case1 => simp [stdB64]
    | case2 b1 =>
        intro x hx
        simp [stdB64] at hx
        rcases hx with h | h | h
        · exact Or.inr ⟨_, h⟩
        · exact Or.inr ⟨_, h⟩
        · exact Or.inl h
    | case3 b1 b2 =>
        intro x hx
        simp [stdB64] at hx
        rcases hx with h | h | h | h
        · exact Or.inr ⟨_, h⟩
        · exact Or.inr ⟨_, h⟩
        · exact Or.inr ⟨_, h⟩
        · exact Or.inl h
    | case4 b1 b2 b3 rest ih =>
        intro x hx
        simp only [stdB64, List.mem_cons] at hx
        rcases hx with h | h | h | h | h
        · exact Or.inr ⟨_, h⟩
        · exact Or.inr ⟨_, h⟩
        · exact Or.inr ⟨_, h⟩
        · exact Or.inr ⟨_, h⟩
        · exact ih x h
  rcases this bytes c0 hc0 with h | ⟨n, rfl⟩
  · subst h
    decide
  · exact toUrlChar_ne_dot _ (sixToChar_ne_dot n)

theorem charToSix_sixToChar : ∀ n, n < 64 → charToSix (sixToChar n) = some n := by
  decide

theorem toUrlChar_eq_pad_iff (c : Char) : toUrlChar c = '=' ↔ c = '=' := by
  unfold toUrlChar
  by_cases h1 : c = '+'
  · simp [h1]
  · by_cases h2 : c = '/' <;> simp [h1, h2]

theorem fromUrl_toUrl_six (n : Nat) : fromUrlChar (toUrlChar (sixToChar n)) = sixToChar n := by
  have hall : ∀ c ∈ b64Alphabet, fromUrlChar (toUrlChar c) = c := by decide
  rcases getD_mem_or b64Alphabet n 'A' with h | h
  · exact hall _ h
  · unfold sixToChar
    rw [h]
    decide

theorem b64ToUrl_keep_six (n : Nat) (cs : List Char) :
    b64ToUrl (sixToChar n :: cs) = toUrlChar (sixToChar n) :: b64ToUrl cs := by
  unfold b64ToUrl
  have : toUrlChar (sixToChar n) ≠ '=' := by
    rw [Ne, toUrlChar_eq_pad_iff]
    exact sixToChar_ne_eq n
  simp [List.filter_cons, this]

theorem b64ToUrl_drop_pad (cs : List Char) : b64ToUrl ('=' :: cs) = b64ToUrl cs := by
  unfold b64ToUrl
  simp only [List.map_cons, show toUrlChar '=' = '=' from rfl, List.filter_cons]
  simp

theorem b64FromUrl_cons4 (a b c d : Char) (E : List Char) :
    b64FromUrl (a :: b :: c :: d :: E) =
      fromUrlChar a :: fromUrlChar b :: fromUrlChar c :: fromUrlChar d :: b64FromUrl E := by
  unfold b64FromUrl
  simp only [List.map_cons, List.length_cons, List.length_map, List.cons_append]
  have h4 : (4 - (E.length + 1 + 1 + 1 + 1) % 4) % 4 = (4 - E.length % 4) % 4 := by omega
  rw [h4]

/-- The base64url byte-level round-trip: decoding an encoding (with the
URL-safe replacements, padding stripping and padding restoration in between)
recovers the original bytes. -/
theorem base64UrlB_roundtrip : ∀ bytes : List Nat, (∀ b ∈ bytes, b < 256) →
    base64UrlDecodeB (base64UrlEncodeB bytes) = bytes := by
  intro bytes
  induction bytes using stdB64.induct with
  | case1 =>
      intro _
      decide
  | case2 b1 =>
      intro hb
      have h1 : b1 < 256 := hb b1 (by simp)
      have hs1 : b1 / 4 < 64 := by omega
      have hs2 : b1 % 4 * 16 < 64 := by omega
      unfold base64UrlEncodeB
      rw [show stdB64 [b1] = [sixToChar (b1 / 4), sixToChar (b1 % 4 * 16), '=', '='] from rfl]
      rw [b64ToUrl_keep_six, b64ToUrl_keep_six, b64ToUrl_drop_pad, b64ToUrl_drop_pad,
        show b64ToUrl [] = [] from rfl]
      unfold base64UrlDecodeB b64FromUrl
      simp only [List.map_cons, List.map_nil, List.length_cons, List.length_nil,
        fromUrl_toUrl_six]
      rw [show (4 - (0 + 1 + 1) % 4) % 4 = 2 from rfl]
      rw [show List.replicate 2 '=' = ['=', '='] from rfl]
      simp only [List.cons_append, List.nil_append]
      unfold stdB64Decode
      rw [charToSix_sixToChar _ hs1, charToSix_sixToChar _ hs2,
        show charToSix '=' = none from rfl]
      simp only [Option.some.injEq]
      congr 1
      omega
  | case3 b1 b2 =>
      intro hb
      have h1 : b1 < 256 := hb b1 (by simp)
      have h2 : b2 < 256 := hb b2 (by simp)
      have hs1 : b1 / 4 < 64 := by omega
      have hs2 : b1 % 4 * 16 + b2 / 16 < 64 := by omega
      have hs3 : b2 % 16 * 4 < 64 := by omega
      unfold base64UrlEncodeB
      rw [show stdB64 [b1, b2] =
        [sixToChar (b1 / 4), sixToChar (b1 % 4 * 16 + b2 / 16), sixToChar (b2 % 16 * 4), '=']
        from rfl]
      rw [b64ToUrl_keep_six, b64ToUrl_keep_six, b64ToUrl_keep_six, b64ToUrl_drop_pad,
        show b64ToUrl [] = [] from rfl]
      unfold base64UrlDecodeB b64FromUrl
      simp only [List.map_cons, List.map_nil, List.length_cons, List.length_nil,
        fromUrl_toUrl_six]
      rw [show (4 - (0 + 1 + 1 + 1) % 4) % 4 = 1 from rfl]
      rw [show List.replicate 1 '=' = ['='] from rfl]
      simp only [List.cons_append, List.nil_append]
      unfold stdB64Decode
      rw [charToSix_sixToChar _ hs1, charToSix_sixToChar _ hs2, charToSix_sixToChar _ hs3,
        show charToSix '=' = none from rfl]
      simp only [List.cons.injEq, and_true]
      exact ⟨by omega, by omega⟩
  | case4 b1 b2 b3 rest ih =>
      intro hb
      have h1 : b1 < 256 := hb b1 (by simp)
      have h2 : b2 < 256 := hb b2 (by simp)
      have h3 : b3 < 256 := hb b3 (by simp)
      have hrest : ∀ b ∈ rest, b < 256 := fun b hm => hb b (by simp [hm])
      have hs1 : b1 / 4 < 64 := by omega
      have hs2 : b1 % 4 * 16 + b2 / 16 < 64 := by omega
      have hs3 : b2 % 16 * 4 + b3 / 64 < 64 := by omega
      have hs4 : b3 % 64 < 64 := by omega
      unfold base64UrlEncodeB
      rw [show stdB64 (b1 :: b2 :: b3 :: rest) =
        sixToChar (b1 / 4) :: sixToChar (b1 % 4 * 16 + b2 / 16) ::
          sixToChar (b2 % 16 * 4 + b3 / 64) :: sixToChar (b3 % 64) :: stdB64 rest from rfl]
      rw [b64ToUrl_keep_six, b64ToUrl_keep_six, b64ToUrl_keep_six, b64ToUrl_keep_six]
      unfold base64UrlDecodeB
      rw [b64FromUrl_cons4]
      simp only [fromUrl_toUrl_six]
      unfold stdB64Decode
      rw [charToSix_sixToChar _ hs1, charToSix_sixToChar _ hs2, charToSix_sixToChar _ hs3,
        charToSix_sixToChar _ hs4]
      have htail : stdB64Decode (b64FromUrl (b64ToUrl (stdB64 rest))) = rest := ih hrest
      rw [htail]
      simp only [List.cons.injEq]
      exact ⟨by omega, by omega, by omega, trivial⟩

/-- UTF-8 encoding of one character (what `Buffer.from(str)` does per code
point). -/
def utf8EncodeChar (c : Char) : List Nat :=
  let n := c.toNat
  if n < 128 then [n]
  else if n < 2048 then [192 + n / 64, 128 + n % 64]
  else if n < 65536 then [224 + n / 4096, 128 + n / 64 % 64, 128 + n % 64]
  else [240 + n / 262144, 128 + n / 4096 % 64, 128 + n / 64 % 64, 128 + n % 64]

/-- UTF-8 encoding of a string. -/
def utf8Encode (s : List Char) : List Nat := s.flatMap utf8EncodeChar

/-- The U+FFFD replacement character Node substitutes for invalid sequences. -/
def uReplChar : Char := Char.ofNat 65533

/-- One UTF-8 decoding step: given the lead byte and the bytes after it,
the decoded character and how many continuation bytes were consumed.  Invalid
sequences yield the replacement character instead of raising, as
`buffer.toString()` does.  (Only the ASCII path is exercised by the proofs
below; the other paths make the model total the way Node's decoder is.) -/
def utf8Step (b1 : Nat) (rest : List Nat) : Char × Nat :=
  if b1 < 128 then (Char.ofNat b1, 0)
  else if 194 ≤ b1 ∧ b1 ≤ 223 then
    match rest with
    | b2 :: _ =>
        if 128 ≤ b2 ∧ b2 ≤ 191 then (Char.ofNat ((b1 - 192) * 64 + (b2 - 128)), 1)
        else (uReplChar, 1)
    | [] => (uReplChar, 0)
  else if 224 ≤ b1 ∧ b1 ≤ 239 then
    match rest with
    | b2 :: b3 :: _ =>
        if (128 ≤ b2 ∧ b2 ≤ 191) ∧ (128 ≤ b3 ∧ b3 ≤ 191) then
          (Char.ofNat ((b1 - 224) * 4096 + (b2 - 128) * 64 + (b3 - 128)), 2)
        else (uReplChar, 2)
    | _ => (uReplChar, rest.length)
  else if 240 ≤ b1 ∧ b1 ≤ 244 then
    match rest with
    | b2 :: b3 :: b4 :: _ =>
        if (128 ≤ b2 ∧ b2 ≤ 191) ∧ (128 ≤ b3 ∧ b3 ≤ 191) ∧ (128 ≤ b4 ∧ b4 ≤ 191) then
          (Char.ofNat ((b1 - 240) * 262144 + (b2 - 128) * 4096 + (b3 - 128) * 64 + (b4 - 128)), 3)
        else (uReplChar, 3)
    | _ => (uReplChar, rest.length)
  else (uReplChar, 0)

/-- Lossy UTF-8 decoding loop; the fuel argument (one unit per decoded
character) keeps the recursion structural so that it reduces in the kernel. -/
def utf8DecodeAux : Nat → List Nat → List Char
  | 0, _ => []
  | _ + 1, [] => []
  | fuel + 1, b1 :: rest =>
      let p := utf8Step b1 rest
      p.1 :: utf8DecodeAux fuel (rest.drop p.2)

/-- Lossy UTF-8 decoding, as `buffer.toString()` performs it. -/
def utf8Decode (bytes : List Nat) : List Char := utf8DecodeAux bytes.length bytes

theorem utf8EncodeChar_ascii (c : Char) (h : c.toNat < 128) :
    utf8EncodeChar c = [c.toNat] := by
  unfold utf8EncodeChar
  simp [h]

theorem utf8Encode_ascii_bytes (s : List Char) (h : ∀ c ∈ s, c.toNat < 128) :
    ∀ b ∈ utf8Encode s, b < 256 := by
  intro b hb
  unfold utf8Encode at hb
  rw [List.mem_flatMap] at hb
  obtain ⟨c, hc, hbc⟩ := hb
  rw [utf8EncodeChar_ascii c (h c hc)] at hbc
  simp at hbc
  subst hbc
  exact Nat.lt_trans (h c hc) (by omega)

theorem utf8Step_ascii (b : Nat) (rest : List Nat) (h : b < 128) :
    utf8Step b rest = (Char.ofNat b, 0) := by
  unfold utf8Step
  rw [if_pos h]

theorem utf8Decode_ascii_cons (b : Nat) (rest : List Nat) (h : b < 128) :
    utf8Decode (b :: rest) = Char.ofNat b :: utf8Decode rest := by
  unfold utf8Decode
  simp only [List.length_cons]
  rw [show utf8DecodeAux (rest.length + 1) (b :: rest)
      = (utf8Step b rest).1 :: utf8DecodeAux rest.length (rest.drop (utf8Step b rest).2)
    from rfl]
  rw [utf8Step_ascii b rest h]
  simp

/-- On ASCII strings, UTF-8 decoding inverts UTF-8 encoding. -/
theorem utf8_ascii_roundtrip (s : List Char) (h : ∀ c ∈ s, c.toNat < 128) :
    utf8Decode (utf8Encode s) = s := by
  induction s with
  | nil => rfl
  | cons c s ih =>
      have hc : c.toNat < 128 := h c (List.mem_cons_self c s)
      have hs : ∀ x ∈ s, x.toNat < 128 := fun x hx => h x (List.mem_cons_of_mem c hx)
      unfold utf8Encode
      rw [List.flatMap_cons, utf8EncodeChar_ascii c hc]
      show utf8Decode (c.toNat :: utf8Encode s) = c :: s
      rw [utf8Decode_ascii_cons _ _ hc, Char.ofNat_toNat, ih hs]

/-- A character that `JSON.stringify` emits verbatim inside a string literal
and that the system's claim data actually uses: printable ASCII other than the
quote and the backslash. -/
def wfChar (c : Char) : Bool :=
  32 ≤ c.toNat && c.toNat < 128 && c ≠ '"' && c ≠ '\\'

def wfStr (s : List Char) : Bool := s.all wfChar

/-- Well-formedness of a scalar claim value for the JSON fragment. -/
def wfScalar : JScalar → Bool
  | .sstr s => wfStr s
  | _ => true

/-- Well-formedness of a claims mapping: every key and every value is
serializable in the modelled JSON fragment. -/
def wfMembers (kvs : List (List Char × JScalar)) : Bool :=
  kvs.all (fun p => wfStr p.1 && wfScalar p.2)

/-- Hexadecimal digit (lower case), used by the `\u00XX` escape. -/
def hexDigit (d : Nat) : Char := if d < 10 then digitChar d else Char.ofNat (87 + d)

/-- `JSON.stringify`s escaping of one character inside a string literal. -/
def escChar (c : Char) : List Char :=
  if c = '"' then ['\\', '"']
  else if c = '\\' then ['\\', '\\']
  else if c = Char.ofNat 10 then ['\\', 'n']
  else if c = Char.ofNat 13 then ['\\', 'r']
  else if c = Char.ofNat 9 then ['\\', 't']
  else if c = Char.ofNat 8 then ['\\', 'b']
  else if c = Char.ofNat 12 then ['\\', 'f']
  else if c.toNat < 32 then ['\\', 'u', '0', '0', hexDigit (c.toNat / 16), hexDigit (c.toNat % 16)]
  else [c]

/-- `JSON.stringify` of a scalar value. -/
def jsonStringifyScalar : JScalar → List Char
  | .snull => "null".data
  | .sbool true => "true".data
  | .sbool false => "false".data
  | .snum n => intChars n
  | .sstr s => '"' :: (s.flatMap escChar ++ ['"'])

/-- `JSON.stringify` of the members of a flat object, comma-separated. -/
def jsonStringifyMembers : List (List Char × JScalar) → List Char
  | [] => []
  | [(k, v)] => '"' :: (k.flatMap escChar ++ ['"', ':']) ++ jsonStringifyScalar v
  | (k, v) :: rest =>
      '"' :: (k.flatMap escChar ++ ['"', ':']) ++ jsonStringifyScalar v ++
        ',' :: jsonStringifyMembers rest

/-- `JSON.stringify` on the modelled fragment (no spaces, insertion order,
exactly as Node prints it). -/
def jsonStringify : JVal → List Char
  | .jnull => "null".data
  | .jbool true => "true".data
  | .jbool false => "false".data
  | .jnum n => intChars n
  | .jstr s => '"' :: (s.flatMap escChar ++ ['"'])
  | .jobj kvs => '\x7b' :: (jsonStringifyMembers kvs ++ ['\x7d'])

/-- The single-character JSON string escapes (the `\uXXXX` form is outside the
modelled fragment). -/
def unescapeChar (c : Char) : Option Char :=
  if c = '"' then some '"'
  else if c = '\\' then some '\\'
  else if c = '/' then some '/'
  else if c = 'n' then some (Char.ofNat 10)
  else if c = 'r' then some (Char.ofNat 13)
  else if c = 't' then some (Char.ofNat 9)
  else if c = 'b' then some (Char.ofNat 8)
  else if c = 'f' then some (Char.ofNat 12)
  else none

/-- Parse the body of a JSON string literal after the opening quote (fuel
keeps the recursion structural; one unit per consumed character suffices). -/
def parseStrBodyAux : Nat → List Char → Option (List Char × List Char)
  | 0, _ => none
  | fuel + 1, cs =>
      match cs with
      | [] => none
      | c :: rest =>
          if c = '"' then some ([], rest)
          else if c = '\\' then
            match rest with
            | [] => none
            | e :: rest2 =>
                match unescapeChar e with
                | none => none
                | some ch =>
                    match parseStrBodyAux fuel rest2 with
                    | none => none
                    | some p => some (ch :: p.1, p.2)
          else if c.toNat < 32 then none
          else
            match parseStrBodyAux fuel rest with
            | none => none
            | some p => some (c :: p.1, p.2)

def parseStrBody (cs : List Char) : Option (List Char × List Char) :=
  parseStrBodyAux cs.length cs

/-- Parse an integer JSON number (the only numbers in the modelled fragment). -/
def parseNumV (cs : List Char) : Option (Int × List Char) :=
  if cs.head? = some '-' then
    let p := takeDigits cs.tail
    if p.1 = [] then none else some (-(digitsVal p.1 : Int), p.2)
  else
    let p := takeDigits cs
    if p.1 = [] then none else some ((digitsVal p.1 : Int), p.2)

/-- Parse a scalar JSON value. -/
def parseScalar (cs : List Char) : Option (JScalar × List Char) :=
  if cs.take 4 = "null".data then some (.snull, cs.drop 4)
  else if cs.take 4 = "true".data then some (.sbool true, cs.drop 4)
  else if cs.take 5 = "false".data then some (.sbool false, cs.drop 5)
  else if cs.head? = some '"' then
    match parseStrBody cs.tail with
    | none => none
    | some p => some (.sstr p.1, p.2)
  else
    match parseNumV cs with
    | none => none
    | some p => some (.snum p.1, p.2)

/-- Parse the members of a flat object after the opening brace (at least one
member; the fuel argument decreases once per member so that the recursion is
structural). -/
def parseMembersAux : Nat → List Char → Option (List (List Char × JScalar) × List Char)
  | 0, _ => none
  | fuel + 1, cs =>
      if cs.head? = some '"' then
        match parseStrBody cs.tail with
        | none => none
        | some kp =>
            if kp.2.head? = some ':' then
              match parseScalar kp.2.tail with
              | none => none
              | some vp =>
                  if vp.2.head? = some ',' then
                    match parseMembersAux fuel vp.2.tail with
                    | none => none
                    | some mp => some ((kp.1, vp.1) :: mp.1, mp.2)
                  else if vp.2.head? = some '\x7d' then some ([(kp.1, vp.1)], vp.2.tail)
                  else none
            else none
      else none

def JScalar.toJVal : JScalar → JVal
  | .snull => .jnull
  | .sbool b => .jbool b
  | .snum n => .jnum n
  | .sstr s => .jstr s

/-- Parse one JSON value (flat-object fragment). -/
def parseTop (cs : List Char) : Option (JVal × List Char) :=
  if cs.head? = some '\x7b' then
    if cs.tail.head? = some '\x7d' then some (.jobj [], cs.tail.tail)
    else
      match parseMembersAux cs.tail.length cs.tail with
      | none => none
      | some mp => some (.jobj mp.1, mp.2)
  else
    match parseScalar cs with
    | none => none
    | some p => some (p.1.toJVal, p.2)

/-- `JSON.parse` on the modelled fragment: the whole input must be consumed;
any failure models the exception `JSON.parse` would throw. -/
def jsonParse (cs : List Char) : Option JVal :=
  match parseTop cs with
  | some (v, []) => some v
  | _ => none

theorem wfChar_spec {c : Char} (h : wfChar c = true) :
    32 ≤ c.toNat ∧ c.toNat < 128 ∧ c ≠ '"' ∧ c ≠ '\\' := by
  simp only [wfChar, Bool.and_eq_true, decide_eq_true_eq] at h
  exact ⟨h.1.1.1, h.1.1.2, h.1.2, h.2⟩

theorem ne_of_toNat_ne {c d : Char} (h : c.toNat ≠ d.toNat) : c ≠ d :=
  fun he => h (he ▸ rfl)

theorem escChar_wf {c : Char} (h : wfChar c = true) : escChar c = [c] := by
  obtain ⟨h32, _, hq, hb⟩ := wfChar_spec h
  unfold escChar
  rw [if_neg hq, if_neg hb,
    if_neg (ne_of_toNat_ne (by rw [show (Char.ofNat 10).toNat = 10 from rfl]; omega)),
    if_neg (ne_of_toNat_ne (by rw [show (Char.ofNat 13).toNat = 13 from rfl]; omega)),
    if_neg (ne_of_toNat_ne (by rw [show (Char.ofNat 9).toNat = 9 from rfl]; omega)),
    if_neg (ne_of_toNat_ne (by rw [show (Char.ofNat 8).toNat = 8 from rfl]; omega)),
    if_neg (ne_of_toNat_ne (by rw [show (Char.ofNat 12).toNat = 12 from rfl]; omega)),
    if_neg (by omega)]

theorem parseStrBodyAux_roundtrip (s : List Char) (hs : wfStr s = true) :
    ∀ fuel, s.length < fuel → ∀ rest,
      parseStrBodyAux fuel (s.flatMap escChar ++ '"' :: rest) = some (s, rest) := by
  induction s with
  | nil =>
      intro fuel hf rest
      match fuel, hf with
      | fuel + 1, _ => rfl
  | cons c s ih =>
      intro fuel hf rest
      have hc : wfChar c = true := by
        simp only [wfStr, List.all_cons, Bool.and_eq_true] at hs
        exact hs.1
      have hs' : wfStr s = true := by
        simp only [wfStr, List.all_cons, Bool.and_eq_true] at hs
        exact hs.2
      obtain ⟨h32, _, hq, hb⟩ := wfChar_spec hc
      rw [List.flatMap_cons, escChar_wf hc]
      match fuel, hf with
      | fuel + 1, hf =>
          show parseStrBodyAux (fuel + 1) (c :: (s.flatMap escChar ++ '"' :: rest))
            = some (c :: s, rest)
          simp only [parseStrBodyAux]
          rw [if_neg hq, if_neg hb, if_neg (by omega),
            ih hs' fuel (by simpa using Nat.lt_of_succ_lt_succ hf) rest]

theorem length_le_flatMap_escChar (s : List Char) :
    s.length ≤ (s.flatMap escChar).length := by
  induction s with
  | nil => simp
  | cons c t iht =>
      rw [List.flatMap_cons]
      have hlen : 1 ≤ (escChar c).length := by
        unfold escChar
        repeat' split
        all_goals simp
      simp only [List.length_append, List.length_cons]
      omega

theorem parseStrBody_roundtrip (s : List Char) (hs : wfStr s = true) (rest : List Char) :
    parseStrBody (s.flatMap escChar ++ '"' :: rest) = some (s, rest) := by
  unfold parseStrBody
  apply parseStrBodyAux_roundtrip s hs
  have := length_le_flatMap_escChar s
  simp only [List.length_append, List.length_cons]
  omega

theorem dash_not_digit : ('-').isDigit = false := by decide

theorem digit_head_ne {c : Char} (h : c.isDigit = true) :
    c ≠ 'n' ∧ c ≠ 't' ∧ c ≠ 'f' ∧ c ≠ '"' ∧ c ≠ '-' := by
  obtain ⟨h1, h2⟩ := isDigit_toNat_bounds h
  refine ⟨ne_of_toNat_ne ?_, ne_of_toNat_ne ?_, ne_of_toNat_ne ?_,
    ne_of_toNat_ne ?_, ne_of_toNat_ne ?_⟩ <;>
    simp only [show ('n').toNat = 110 from rfl, show ('t').toNat = 116 from rfl,
      show ('f').toNat = 102 from rfl, show ('"').toNat = 34 from rfl,
      show ('-').toNat = 45 from rfl] <;> omega

theorem parseNumV_roundtrip (n : Int) (rest : List Char)
    (hr : ∀ c, rest.head? = some c → c.isDigit = false) :
    parseNumV (intChars n ++ rest) = some (n, rest) := by
  by_cases hneg : n < 0
  · unfold intChars
    rw [if_pos hneg]
    unfold parseNumV
    simp only [List.cons_append, List.head?_cons, List.tail_cons, if_pos rfl]
    rw [takeDigits_append _ _ (natDigits_all_digit _) hr]
    have hval : -((digitsVal (natDigits n.natAbs) : Nat) : Int) = n := by
      rw [digitsVal_natDigits]
      omega
    simp [natDigits_ne_nil n.natAbs, hval]
  · unfold intChars
    rw [if_neg hneg]
    obtain ⟨c0, t0, he⟩ : ∃ c0 t0, natDigits n.toNat = c0 :: t0 := by
      cases hnd : natDigits n.toNat with
      | nil => exact absurd hnd (natDigits_ne_nil _)
      | cons c0 t0 => exact ⟨c0, t0, rfl⟩
    have hc0 : c0.isDigit = true := natDigits_all_digit n.toNat c0 (by rw [he]; simp)
    have hko := digit_head_ne hc0
    unfold parseNumV
    rw [he]
    simp only [List.cons_append, List.head?_cons]
    rw [if_neg (by simp [hko.2.2.2.2])]
    rw [show c0 :: (t0 ++ rest) = (c0 :: t0) ++ rest from (List.cons_append c0 t0 rest).symm,
      ← he, takeDigits_append _ _ (natDigits_all_digit _) hr]
    have hval : ((digitsVal (natDigits n.toNat) : Nat) : Int) = n := by
      rw [digitsVal_natDigits]
      omega
    simp [natDigits_ne_nil n.toNat, hval]

theorem cons_take_ne {c0 c1 : Char} (hne : c0 ≠ c1) (t t' : List Char) (n : Nat) :
    (c0 :: t).take (n + 1) ≠ c1 :: t' := by
  simp [List.take_succ_cons, List.cons.injEq, hne]

theorem parseScalar_roundtrip (v : JScalar) (hv : wfScalar v = true) (rest : List Char)
    (hr : ∀ c, rest.head? = some c → c.isDigit = false) :
    parseScalar (jsonStringifyScalar v ++ rest) = some (v, rest) := by
  cases v with
  | snull =>
      show parseScalar ("null".data ++ rest) = some (.snull, rest)
      unfold parseScalar
      rw [if_pos (by rw [show (4 : Nat) = ("null".data).length from rfl, List.take_left])]
      rw [show (4 : Nat) = ("null".data).length from rfl, List.drop_left]
  | sbool b =>
      cases b with
      | true =>
          show parseScalar ("true".data ++ rest) = some (.sbool true, rest)
          unfold parseScalar
          rw [if_neg (by
            rw [show "true".data ++ rest = 't' :: ("rue".data ++ rest) from rfl,
              show "null".data = 'n' :: "ull".data from rfl]
            exact cons_take_ne (by decide) _ _ 3)]
          rw [if_pos (by rw [show (4 : Nat) = ("true".data).length from rfl, List.take_left])]
          rw [show (4 : Nat) = ("true".data).length from rfl, List.drop_left]
      | false =>
          show parseScalar ("false".data ++ rest) = some (.sbool false, rest)
          unfold parseScalar
          rw [if_neg (by
            rw [show "false".data ++ rest = 'f' :: ("alse".data ++ rest) from rfl,
              show "null".data = 'n' :: "ull".data from rfl]
            exact cons_take_ne (by decide) _ _ 3)]
          rw [if_neg (by
            rw [show "false".data ++ rest = 'f' :: ("alse".data ++ rest) from rfl,
              show "true".data = 't' :: "rue".data from rfl]
            exact cons_take_ne (by decide) _ _ 3)]
          rw [if_pos (by rw [show (5 : Nat) = ("false".data).length from rfl, List.take_left])]
          rw [show (5 : Nat) = ("false".data).length from rfl, List.drop_left]
  | snum n =>
      show parseScalar (intChars n ++ rest) = some (.snum n, rest)
      obtain ⟨c0, t0, he, hd⟩ :
          ∃ c0 t0, intChars n = c0 :: t0 ∧ (c0.isDigit = true ∨ c0 = '-') := by
        unfold intChars
        by_cases hneg : n < 0
        · rw [if_pos hneg]
          exact ⟨'-', natDigits n.natAbs, rfl, Or.inr rfl⟩
        · rw [if_neg hneg]
          cases hnd : natDigits n.toNat with
          | nil => exact absurd hnd (natDigits_ne_nil _)
          | cons c0 t0 =>
              exact ⟨c0, t0, rfl, Or.inl (natDigits_all_digit _ c0 (by rw [hnd]; simp))⟩
      have hne_n : c0 ≠ 'n' := by
        rcases hd with hd | hd
        · exact (digit_head_ne hd).1
        · rw [hd]; decide
      have hne_t : c0 ≠ 't' := by
        rcases hd with hd | hd
        · exact (digit_head_ne hd).2.1
        · rw [hd]; decide
      have hne_f : c0 ≠ 'f' := by
        rcases hd with hd | hd
        · exact (digit_head_ne hd).2.2.1
        · rw [hd]; decide
      have hne_q : c0 ≠ '"' := by
        rcases hd with hd | hd
        · exact (digit_head_ne hd).2.2.2.1
        · rw [hd]; decide
      unfold parseScalar
      rw [he, List.cons_append]
      rw [if_neg (by
        rw [show "null".data = 'n' :: "ull".data from rfl]
        exact cons_take_ne hne_n _ _ 3)]
      rw [if_neg (by
        rw [show "true".data = 't' :: "rue".data from rfl]
        exact cons_take_ne hne_t _ _ 3)]
      rw [if_neg (by
        rw [show "false".data = 'f' :: "alse".data from rfl]
        exact cons_take_ne hne_f _ _ 4)]
      rw [if_neg (by simp [hne_q])]
      rw [show c0 :: (t0 ++ rest) = (c0 :: t0) ++ rest from (List.cons_append c0 t0 rest).symm,
        ← he, parseNumV_roundtrip n rest hr]
  | sstr s =>
      have hws : wfStr s = true := hv
      show parseScalar ('"' :: (s.flatMap escChar ++ ['"']) ++ rest) = some (.sstr s, rest)
      unfold parseScalar
      rw [List.cons_append]
      rw [if_neg (by
        rw [show "null".data = 'n' :: "ull".data from rfl]
        exact cons_take_ne (by decide) _ _ 3)]
      rw [if_neg (by
        rw [show "true".data = 't' :: "rue".data from rfl]
        exact cons_take_ne (by decide) _ _ 3)]
      rw [if_neg (by
        rw [show "false".data = 'f' :: "alse".data from rfl]
        exact cons_take_ne (by decide) _ _ 4)]
      rw [if_pos (by simp)]
      rw [show ('"' :: (s.flatMap escChar ++ ['"'] ++ rest)).tail
          = s.flatMap escChar ++ '"' :: rest by simp]
      rw [parseStrBody_roundtrip s hws rest]

theorem close_brace_not_digit : ∀ c : Char, ('\x7d' :: ([] : List Char)).head? = some c →
    c.isDigit = false := by
  intro c h
  injection h with h
  rw [← h]
  decide

theorem parseMembersAux_roundtrip (kvs : List (List Char × JScalar)) :
    ∀ fuel, kvs ≠ [] → wfMembers kvs = true → kvs.length ≤ fuel → ∀ rest,
      parseMembersAux fuel (jsonStringifyMembers kvs ++ '\x7d' :: rest) = some (kvs, rest) := by
  induction kvs with
  | nil =>
      intro fuel h
      exact absurd rfl h
  | cons hd tl ih =>
      obtain ⟨k, v⟩ := hd
      intro fuel _ hwf hlen rest
      have hk : wfStr k = true := by
        simp only [wfMembers, List.all_cons, Bool.and_eq_true] at hwf
        exact hwf.1.1
      have hv : wfScalar v = true := by
        simp only [wfMembers, List.all_cons, Bool.and_eq_true] at hwf
        exact hwf.1.2
      have hwtl : wfMembers tl = true := by
        simp only [wfMembers, List.all_cons, Bool.and_eq_true] at hwf
        exact hwf.2
      match fuel, hlen with
      | fuel + 1, hlen =>
          cases tl with
          | nil =>
              have hstr := parseStrBody_roundtrip k hk
                (':' :: (jsonStringifyScalar v ++ '\x7d' :: rest))
              have hps := parseScalar_roundtrip v hv ('\x7d' :: rest) (by
                intro c h
                injection h with h
                rw [← h]
                decide)
              simp [parseMembersAux, jsonStringifyMembers, hstr, hps]
          | cons hd2 tl2 =>
              have hstr := parseStrBody_roundtrip k hk
                (':' :: (jsonStringifyScalar v ++ ',' ::
                  (jsonStringifyMembers (hd2 :: tl2) ++ '\x7d' :: rest)))
              have hps := parseScalar_roundtrip v hv
                (',' :: (jsonStringifyMembers (hd2 :: tl2) ++ '\x7d' :: rest)) (by
                  intro c h
                  injection h with h
                  rw [← h]
                  decide)
              have hih := ih fuel (by simp) hwtl
                (by simp only [List.length_cons] at hlen ⊢; omega) rest
              simp [parseMembersAux, jsonStringifyMembers, hstr, hps, hih]

theorem jsonStringifyMembers_length (kvs : List (List Char × JScalar)) :
    kvs.length ≤ (jsonStringifyMembers kvs).length := by
  induction kvs with
  | nil => simp [jsonStringifyMembers]
  | cons hd tl ih =>
      obtain ⟨k, v⟩ := hd
      cases tl with
      | nil => simp [jsonStringifyMembers]
      | cons hd2 tl2 =>
          rw [show jsonStringifyMembers ((k, v) :: hd2 :: tl2)
              = '"' :: (k.flatMap escChar ++ ['"', ':']) ++ jsonStringifyScalar v ++
                  ',' :: jsonStringifyMembers (hd2 :: tl2) from rfl]
          simp only [List.length_cons, List.length_append] at ih ⊢
          omega

theorem jsonStringifyMembers_head (kvs : List (List Char × JScalar)) (h : kvs ≠ []) :
    ∃ t, jsonStringifyMembers kvs = '"' :: t := by
  cases kvs with
  | nil => exact absurd rfl h
  | cons hd tl =>
      obtain ⟨k, v⟩ := hd
      cases tl with
      | nil => exact ⟨_, rfl⟩
      | cons hd2 tl2 => exact ⟨_, rfl⟩

/-- The JSON codec round-trip on flat objects: parsing the serialization of a
well-formed claims object recovers it exactly. -/
theorem jsonParse_jsonStringify_obj (kvs : List (List Char × JScalar))
    (hwf : wfMembers kvs = true) :
    jsonParse (jsonStringify (.jobj kvs)) = some (.jobj kvs) := by
  cases kvs with
  | nil => rfl
  | cons hd tl =>
      obtain ⟨t, ht⟩ := jsonStringifyMembers_head (hd :: tl) (by simp)
      have hlen := jsonStringifyMembers_length (hd :: tl)
      have hpm := parseMembersAux_roundtrip (hd :: tl)
        ((jsonStringifyMembers (hd :: tl) ++ ['\x7d']).length) (by simp) hwf
        (by
          simp only [List.length_append, List.length_cons, List.length_nil] at hlen ⊢
          omega) []
      rw [show jsonStringify (.jobj (hd :: tl))
          = '\x7b' :: (jsonStringifyMembers (hd :: tl) ++ ['\x7d']) from rfl]
      unfold jsonParse parseTop
      simp only [List.head?_cons, List.tail_cons, if_true]
      rw [if_neg (by rw [ht]; simp)]
      rw [hpm]

theorem intChars_ascii (n : Int) : ∀ c ∈ intChars n, c.toNat < 128 := by
  intro c hc
  unfold intChars at hc
  by_cases hn : n < 0
  · rw [if_pos hn] at hc
    rcases List.mem_cons.mp hc with h | h
    · rw [h]
      decide
    · have := isDigit_toNat_bounds (natDigits_all_digit _ c h)
      omega
  · rw [if_neg hn] at hc
    have := isDigit_toNat_bounds (natDigits_all_digit _ c hc)
    omega

theorem escStr_ascii (s : List Char) (h : wfStr s = true) :
    ∀ c ∈ s.flatMap escChar, c.toNat < 128 := by
  intro c hc
  rw [List.mem_flatMap] at hc
  obtain ⟨c', hc', hcc⟩ := hc
  have hw : wfChar c' = true := by
    simp only [wfStr, List.all_eq_true] at h
    exact h c' hc'
  rw [escChar_wf hw] at hcc
  simp at hcc
  subst hcc
  exact (wfChar_spec hw).2.1

theorem stringifyScalar_ascii (v : JScalar) (h : wfScalar v = true) :
    ∀ c ∈ jsonStringifyScalar v, c.toNat < 128 := by
  intro c hc
  cases v with
  | snull =>
      have : ∀ x ∈ "null".data, x.toNat < 128 := by decide
      exact this c hc
  | sbool b =>
      cases b with
      | true =>
          have : ∀ x ∈ "true".data, x.toNat < 128 := by decide
          exact this c hc
      | false =>
          have : ∀ x ∈ "false".data, x.toNat < 128 := by decide
          exact this c hc
  | snum n => exact intChars_ascii n c hc
  | sstr s =>
      rw [show jsonStringifyScalar (.sstr s) = '"' :: (s.flatMap escChar ++ ['"']) from rfl]
        at hc
      rcases List.mem_cons.mp hc with h' | h'
      · rw [h']
        decide
      · rcases List.mem_append.mp h' with h' | h'
        · exact escStr_ascii s h c h'
        · simp at h'
          rw [h']
          decide

theorem stringifyMembers_ascii (kvs : List (List Char × JScalar)) (h : wfMembers kvs = true) :
    ∀ c ∈ jsonStringifyMembers kvs, c.toNat < 128 := by
  induction kvs with
  | nil => simp [jsonStringifyMembers]
  | cons hd tl ih =>
      obtain ⟨k, v⟩ := hd
      have hk : wfStr k = true := by
        simp only [wfMembers, List.all_cons, Bool.and_eq_true] at h
        exact h.1.1
      have hv : wfScalar v = true := by
        simp only [wfMembers, List.all_cons, Bool.and_eq_true] at h
        exact h.1.2
      have htl : wfMembers tl = true := by
        simp only [wfMembers, List.all_cons, Bool.and_eq_true] at h
        exact h.2
      cases tl with
      | nil =>
          rw [show jsonStringifyMembers [(k, v)]
              = '"' :: (k.flatMap escChar ++ ['"', ':']) ++ jsonStringifyScalar v from rfl]
          simp only [List.cons_append, List.forall_mem_cons, List.forall_mem_append,
            List.forall_mem_singleton]
          repeat' apply And.intro
          all_goals
            first
              | decide
              | exact escStr_ascii k hk
              | exact stringifyScalar_ascii v hv
      | cons hd2 tl2 =>
          rw [show jsonStringifyMembers ((k, v) :: hd2 :: tl2)
              = '"' :: (k.flatMap escChar ++ ['"', ':']) ++ jsonStringifyScalar v ++
                  ',' :: jsonStringifyMembers (hd2 :: tl2) from rfl]
          simp only [List.cons_append, List.forall_mem_cons, List.forall_mem_append,
            List.forall_mem_singleton]
          repeat' apply And.intro
          all_goals
            first
              | decide
              | exact escStr_ascii k hk
              | exact stringifyScalar_ascii v hv
              | exact ih htl

theorem jsonStringify_obj_ascii (kvs : List (List Char × JScalar)) (h : wfMembers kvs = true) :
    ∀ c ∈ jsonStringify (.jobj kvs), c.toNat < 128 := by
  intro c hc
  rw [show jsonStringify (.jobj kvs)
      = '\x7b' :: (jsonStringifyMembers kvs ++ ['\x7d']) from rfl] at hc
  rcases List.mem_cons.mp hc with h' | h'
  · rw [h']; decide
  · rcases List.mem_append.mp h' with h' | h'
    · exact stringifyMembers_ascii kvs h c h'
    · simp at h'
      rw [h']
      decide

/-- JavaScript `Number(s)` on the integer fragment (used for the `<`
coercion in the expiry check when `exp` is a string): empty string is 0,
optional sign plus digits is the value, anything else is `NaN` (`none`). -/
def strToNumber (s : List Char) : Option Int :=
  if s = [] then some 0
  else if s.head? = some '-' then
    let p := takeDigits s.tail
    if p.1 ≠ [] ∧ p.2 = [] then some (-(digitsVal p.1 : Int)) else none
  else
    let p := takeDigits s
    if p.1 ≠ [] ∧ p.2 = [] then some ((digitsVal p.1 : Int)) else none

/-- JavaScript `ToNumber` on a scalar (`NaN` is `none`). -/
def scalarToNumber : JScalar → Option Int
  | .snum n => some n
  | .snull => some 0
  | .sbool b => some (if b then 1 else 0)
  | .sstr s => strToNumber s

/-- The JavaScript comparison `e < t` for a scalar against a number: `NaN`
comparisons are false. -/
def scalarLtNat (e : JScalar) (t : Nat) : Bool :=
  match scalarToNumber e with
  | some x => decide (x < (t : Int))
  | none => false

/-- The `multipliers` object of `calculateExpiration`. -/
def multOf (u : Char) : Nat :=
  if u = 's' then 1
  else if u = 'm' then 60
  else if u = 'h' then 3600
  else if u = 'd' then 86400
  else 0

/-- `duration.match(/^(\d+)([smhd])$/)`: the captured integer value and unit
character, or `none` when the regex does not match. -/
def durMatch (cs : List Char) : Option (Nat × Char) :=
  match cs.getLast? with
  | none => none
  | some u =>
      if cs.dropLast ≠ [] ∧ cs.dropLast.all Char.isDigit
          ∧ (u = 's' ∨ u = 'm' ∨ u = 'h' ∨ u = 'd')
      then some (digitsVal cs.dropLast, u)
      else none

/-- `calculateExpiration(now, duration)` from `utils/jwt.js`: parse the
duration string; on a match add `value * multiplier`, otherwise default to 24
hours. -/
def calculateExpiration (now : Nat) (duration : List Char) : Nat :=
  match durMatch duration with
  | none => now + 24 * 60 * 60
  | some p => now + p.1 * multOf p.2

/-- The fixed JWT header object `{ alg: "HS256", typ: "JWT" }`. -/
def jwtHeader : JVal :=
  .jobj [("alg".data, .sstr "HS256".data), ("typ".data, .sstr "JWT".data)]

/-- `base64UrlEncode` from `utils/jwt.js`: UTF-8 bytes, standard base64, then
the three URL-safe replacements. -/
def base64UrlEncode (s : List Char) : List Char := base64UrlEncodeB (utf8Encode s)

/-- `base64UrlDecode` from `utils/jwt.js`: undo the replacements, re-pad,
base64-decode, decode UTF-8. -/
def base64UrlDecode (s : List Char) : List Char := utf8Decode (base64UrlDecodeB s)

/-- `createSignature(data, secret)`: HMAC-SHA256 in base64url, abstracted as
the function parameter `hmac`. -/
def createSignature (hmac : List Char → List Char → List Char)
    (data secret : List Char) : List Char :=
  hmac data secret

/-- The claim set `{ ...payload, iat: now, exp: expiration }` built by
`generateToken`. -/
def buildClaims (payload : List (List Char × JScalar)) (now expiration : Nat) :
    List (List Char × JScalar) :=
  jsSet (jsSet payload "iat".data (.snum now)) "exp".data (.snum expiration)

/-- `generateToken(payload, secret, expiresIn)` from `utils/jwt.js`, with the
clock passed explicitly. -/
def generateToken (hmac : List Char → List Char → List Char)
    (payload : List (List Char × JScalar)) (secret expiresIn : List Char)
    (now : Nat) : List Char :=
  let encodedHeader := base64UrlEncode (jsonStringify jwtHeader)
  let expiration := calculateExpiration now expiresIn
  let claims := buildClaims payload now expiration
  let encodedPayload := base64UrlEncode (jsonStringify (.jobj claims))
  let signature := createSignature hmac (encodedHeader ++ '.' :: encodedPayload) secret
  encodedHeader ++ '.' :: encodedPayload ++ '.' :: signature

/-- `verifyToken(token, secret)` from `utils/jwt.js`, with the clock passed
explicitly.  The surrounding `try/catch` that turns any exception into `null`
is modelled by the `none` results: non-string input, wrong segment count,
signature mismatch, a payload that fails `JSON.parse`, a `null` payload (whose
`.exp` access throws a `TypeError`), and an expired token all yield `none`. -/
def verifyTokenStr (hmac : List Char → List Char → List Char) (t : List Char)
    (secret : List Char) (now : Nat) : Option JVal :=
  if t = [] then none
  else
    match splitCh '.' t with
    | [encodedHeader, encodedPayload, signature] =>
        let expected :=
          createSignature hmac (encodedHeader ++ '.' :: encodedPayload) secret
        if signature ≠ expected then none
        else
          match jsonParse (base64UrlDecode encodedPayload) with
          | none => none
          | some payload =>
              match payload with
              | .jnull => none
              | .jobj kvs =>
                  match jsGet kvs "exp".data with
                  | some e =>
                      if scalarTruthy e && scalarLtNat e now then none
                      else some (.jobj kvs)
                  | none => some (.jobj kvs)
              | other => some other
    | _ => none

/-- `verifyToken(token, secret)` dispatch on the dynamic input: the
`!token || typeof token !== "string"` guard sends every non-string (and the
empty string, the only falsy string) to `null`. -/
def verifyToken (hmac : List Char → List Char → List Char) (token : JVal)
    (secret : List Char) (now : Nat) : Option JVal :=
  match token with
  | .jstr t => verifyTokenStr hmac t secret now
  | _ => none

theorem verifyToken_jstr (hmac : List Char → List Char → List Char) (t : List Char)
    (secret : List Char) (now : Nat) :
    verifyToken hmac (.jstr t) secret now = verifyTokenStr hmac t secret now := rfl

/-- The string case of `extractTokenFromHeader`: split on spaces, demand
exactly two components with the first literally `Bearer`. -/
def extractTokenFromHeaderStr (s : List Char) : Option (List Char) :=
  if s = [] then none
  else
    match splitCh ' ' s with
    | [scheme, token] => if scheme = "Bearer".data then some token else none
    | _ => none

/-- `extractTokenFromHeader(authHeader)` from `utils/jwt.js`: the
`!authHeader || typeof authHeader !== "string"` guard sends every non-string
(and the empty string) to `null`. -/
def extractTokenFromHeader (authHeader : JVal) : Option (List Char) :=
  match authHeader with
  | .jstr s => extractTokenFromHeaderStr s
  | _ => none

theorem extractTokenFromHeader_jstr (s : List Char) :
    extractTokenFromHeader (.jstr s) = extractTokenFromHeaderStr s := rfl

theorem base64UrlEncode_not_mem_dot (s : List Char) : '.' ∉ base64UrlEncode s :=
  fun h => base64UrlEncodeB_ne_dot (utf8Encode s) '.' h rfl

/-- The full text codec round-trip used by the token pipeline on ASCII data. -/
theorem base64Url_ascii_roundtrip (s : List Char) (h : ∀ c ∈ s, c.toNat < 128) :
    base64UrlDecode (base64UrlEncode s) = s := by
  unfold base64UrlDecode base64UrlEncode
  rw [base64UrlB_roundtrip _ (utf8Encode_ascii_bytes s h), utf8_ascii_roundtrip s h]

/-- The expiry gate at the end of `verifyToken` (lines 112–119 of
`utils/jwt.js`): reject only when `exp` is present, truthy and strictly below
the clock. -/
def expiryGate (kvs : List (List Char × JScalar)) (now : Nat) : Option JVal :=
  match jsGet kvs "exp".data with
  | some e => if scalarTruthy e && scalarLtNat e now then none else some (.jobj kvs)
  | none => some (.jobj kvs)

/-- Evaluation of `verifyToken` on a well-signed three-segment token whose
payload segment encodes a well-formed flat claims object: the outcome is
exactly the expiry gate on those claims, for any header segment (the header is
never decoded). -/
theorem verifyToken_wellformed (hmac : List Char → List Char → List Char)
    (eh : List Char) (heh : '.' ∉ eh)
    (kvs : List (List Char × JScalar)) (hwf : wfMembers kvs = true)
    (secret : List Char) (now : Nat) (sig : List Char)
    (hsig : sig = hmac (eh ++ '.' :: base64UrlEncode (jsonStringify (.jobj kvs))) secret)
    (hsd : '.' ∉ sig) :
    verifyToken hmac
      (.jstr (eh ++ '.' :: base64UrlEncode (jsonStringify (.jobj kvs)) ++ '.' :: sig))
      secret now
      = expiryGate kvs now := by
  have hepd : '.' ∉ base64UrlEncode (jsonStringify (.jobj kvs)) :=
    base64UrlEncode_not_mem_dot _
  have ht : (eh ++ '.' :: base64UrlEncode (jsonStringify (.jobj kvs)) ++ '.' :: sig) ≠ [] := by
    simp
  rw [verifyToken_jstr]
  unfold verifyTokenStr
  rw [if_neg ht, splitCh_three '.' _ _ _ heh hepd hsd]
  simp only [hsig]
  simp [createSignature, base64Url_ascii_roundtrip _ (jsonStringify_obj_ascii kvs hwf),
    jsonParse_jsonStringify_obj kvs hwf, expiryGate]

/-- JavaScript truthiness of a dynamic value (`if (secretCache[secretName])`). -/
def jvalTruthy : JVal → Bool
  | .jnull => false
  | .jbool b => b
  | .jnum n => decide (n ≠ 0)
  | .jstr s => decide (s ≠ [])
  | .jobj _ => true

/-- Lookup in the module-level secret cache object. -/
def cacheGet : List (List Char × JVal) → List Char → Option JVal
  | [], _ => none
  | (k', v) :: rest, k => if k' = k then some v else cacheGet rest k

/-- `secretCache[secretName] = secret`. -/
def cacheSet : List (List Char × JVal) → List Char → JVal → List (List Char × JVal)
  | [], k, v => [(k, v)]
  | (k', v') :: rest, k, v =>
      if k' = k then (k', v) :: rest else (k', v') :: cacheSet rest k v

/-- The fetch path of `getSecret` (`utils/secrets.js` lines 30–53): the AWS
SDK call's outcome is the parameter `fetch` (`.error e` = the call threw with
message `e`, `.ok none` = a response without `SecretString`, `.ok (some str)` =
`SecretString` is `str`).  Every throw inside the `try` is caught and re-thrown
wrapped in `Failed to retrieve secret: `; the engine-specific texts of the
inner `SecretString`/`JSON.parse` messages are abstracted. -/
def getSecretFetch (cache : List (List Char × JVal)) (name : List Char)
    (fetch : Except (List Char) (Option (List Char))) :
    Except (List Char) (JVal × List (List Char × JVal)) :=
  match fetch with
  | .error e => .error ("Failed to retrieve secret: ".data ++ e)
  | .ok none =>
      .error ("Failed to retrieve secret: ".data ++ "Secret has no SecretString value".data)
  | .ok (some str) =>
      match jsonParse str with
      | none => .error ("Failed to retrieve secret: ".data ++ "invalid JSON".data)
      | some secret => .ok (secret, cacheSet cache name secret)

/-- `getSecret(secretName)` from `utils/secrets.js`: cache hit (truthy) short
circuits; otherwise fetch, parse and cache.  A failure is a thrown error
(`Except.error`), never a `null` result. -/
def getSecret (cache : List (List Char × JVal)) (name : List Char)
    (fetch : Except (List Char) (Option (List Char))) :
    Except (List Char) (JVal × List (List Char × JVal)) :=
  match cacheGet cache name with
  | some v => if jvalTruthy v then .ok (v, cache) else getSecretFetch cache name fetch
  | none => getSecretFetch cache name fetch

/-- `getJWTSecret()` from `utils/secrets.js`, with the environment variable
passed explicitly (`none`/empty = unset, both falsy).  `secret.jwtSecret` on a
non-object or with a falsy value throws (message abstracted for the non-object
cases). -/
def getJWTSecret (envName : Option (List Char)) (cache : List (List Char × JVal))
    (fetch : Except (List Char) (Option (List Char))) :
    Except (List Char) (JScalar × List (List Char × JVal)) :=
  match envName with
  | none => .error "JWT_SECRET_NAME environment variable is not set".data
  | some name =>
      if name = [] then .error "JWT_SECRET_NAME environment variable is not set".data
      else
        match getSecret cache name fetch with
        | .error e => .error e
        | .ok (secret, cache2) =>
            match secret with
            | .jobj kvs =>
                match jsGet kvs "jwtSecret".data with
                | some v =>
                    if scalarTruthy v then .ok (v, cache2)
                    else .error "jwtSecret not found in secret".data
                | none => .error "jwtSecret not found in secret".data
            | _ => .error "jwtSecret not found in secret".data

/-- The two terminal outcomes of the Lambda authorizer: an Allow policy
carrying the principal and the context object, or the thrown
`Error("Unauthorized")` that API Gateway renders as 401. -/
inductive AuthOutcome where
  | allow (principalId : Option JScalar) (context : List (List Char × Option JScalar)) :
      AuthOutcome
  | unauthorized : AuthOutcome
deriving DecidableEq, Repr

/-- `payload.k` on the decoded payload (`undefined` = `none`). -/
def payloadGet (p : JVal) (k : List Char) : Option JScalar :=
  match p with
  | .jobj kvs => jsGet kvs k
  | _ => none

/-- `authorize(event)` from the Lambda authorizer (`handlers/authorizer.js`):
extract the bearer token, fetch the signing secret, verify.  The function body
is one big `try/catch` whose `catch` throws `Error("Unauthorized")`, so every
failure — missing token, *a thrown secret-store failure*, an invalid or
expired token, a non-string secret reaching `createHmac` — collapses to the
single `unauthorized` outcome. -/
def authorize (hmac : List Char → List Char → List Char) (authorizationToken : JVal)
    (envName : Option (List Char)) (cache : List (List Char × JVal))
    (fetch : Except (List Char) (Option (List Char))) (now : Nat) : AuthOutcome :=
  match extractTokenFromHeader authorizationToken with
  | none => .unauthorized
  | some token =>
      match getJWTSecret envName cache fetch with
      | .error _ => .unauthorized
      | .ok (secretVal, _) =>
          match secretVal with
          | .sstr secret =>
              match verifyToken hmac (.jstr token) secret now with
              | none => .unauthorized
              | some payload =>
                  .allow (payloadGet payload "userId".data)
                    [("userId".data, payloadGet payload "userId".data),
                      ("email".data, payloadGet payload "email".data),
                      ("role".data, payloadGet payload "role".data),
                      ("name".data, payloadGet payload "name".data)]
          | _ => .unauthorized

/-- `hashPassword(password)` from `handlers/auth.js`: PBKDF2 with 10000
iterations, 64-byte key, SHA-512, hex output, over a fresh random hex salt.
`crypto.pbkdf2Sync(...).toString("hex")` is the abstract parameter `pbkdf2`;
the random salt (`crypto.randomBytes(16).toString("hex")`) is the explicit
input `saltHex`. -/
def hashPassword (pbkdf2 : List Char → List Char → Nat → Nat → List Char → List Char)
    (password saltHex : List Char) : List Char × List Char :=
  (pbkdf2 password saltHex 10000 64 "sha512".data, saltHex)

/-- `verifyPassword(password, hash, salt)` from `handlers/auth.js`:
recompute the digest with the identical parameters and compare. -/
def verifyPassword (pbkdf2 : List Char → List Char → Nat → Nat → List Char → List Char)
    (password hash salt : List Char) : Bool :=
  decide (hash = pbkdf2 password salt 10000 64 "sha512".data)

theorem wfMembers_jsSet (kvs : List (List Char × JScalar)) (k : List Char) (v : JScalar)
    (h : wfMembers kvs = true) (hk : wfStr k = true) (hv : wfScalar v = true) :
    wfMembers (jsSet kvs k v) = true := by
  induction kvs with
  | nil => simp [jsSet, wfMembers, hk, hv]
  | cons p rest ih =>
      obtain ⟨k0, v0⟩ := p
      simp only [wfMembers, List.all_cons, Bool.and_eq_true] at h
      by_cases h0 : k0 = k
      · unfold jsSet
        rw [if_pos h0]
        simp only [wfMembers, List.all_cons, Bool.and_eq_true]
        exact ⟨⟨h.1.1, hv⟩, h.2⟩
      · unfold jsSet
        rw [if_neg h0]
        simp only [wfMembers, List.all_cons, Bool.and_eq_true]
        exact ⟨⟨h.1.1, h.1.2⟩, ih h.2⟩

theorem wfMembers_buildClaims (payload : List (List Char × JScalar)) (now expiration : Nat)
    (h : wfMembers payload = true) : wfMembers (buildClaims payload now expiration) = true := by
  unfold buildClaims
  have h1 : wfMembers (jsSet payload "iat".data (.snum now)) = true :=
    wfMembers_jsSet payload _ _ h (by decide) rfl
  exact wfMembers_jsSet _ _ _ h1 (by decide) rfl

theorem jsGet_buildClaims_iat (payload : List (List Char × JScalar)) (now expiration : Nat) :
    jsGet (buildClaims payload now expiration) "iat".data = some (.snum now) := by
  unfold buildClaims
  rw [jsGet_jsSet_other _ _ _ _ (by decide), jsGet_jsSet_same]

theorem jsGet_buildClaims_exp (payload : List (List Char × JScalar)) (now expiration : Nat) :
    jsGet (buildClaims payload now expiration) "exp".data = some (.snum expiration) := by
  unfold buildClaims
  rw [jsGet_jsSet_same]

theorem jsGet_buildClaims_other (payload : List (List Char × JScalar)) (now expiration : Nat)
    (k : List Char) (hiat : k ≠ "iat".data) (hexp : k ≠ "exp".data) :
    jsGet (buildClaims payload now expiration) k = jsGet payload k := by
  unfold buildClaims
  rw [jsGet_jsSet_other _ _ _ _ (Ne.symm hexp), jsGet_jsSet_other _ _ _ _ (Ne.symm hiat)]

theorem calculateExpiration_shift (now : Nat) (D : List Char) :
    calculateExpiration now D = now + calculateExpiration 0 D := by
  unfold calculateExpiration
  cases durMatch D with
  | none => exact (by omega : now + 24 * 60 * 60 = now + (0 + 24 * 60 * 60))
  | some p => exact (by omega : now + p.1 * multOf p.2 = now + (0 + p.1 * multOf p.2))

theorem calculateExpiration_ge (now : Nat) (D : List Char) :
    now ≤ calculateExpiration now D := by
  unfold calculateExpiration
  cases durMatch D with
  | none => exact (by omega : now ≤ now + 24 * 60 * 60)
  | some p => exact (by omega : now ≤ now + p.1 * multOf p.2)

theorem expiryGate_fresh (kvs : List (List Char × JScalar)) (now expiration : Nat)
    (hget : jsGet kvs "exp".data = some (.snum expiration))
    (hfresh : now ≤ expiration) :
    expiryGate kvs now = some (.jobj kvs) := by
  unfold expiryGate
  rw [hget]
  have hlt : ¬((expiration : Int) < (now : Int)) := by omega
  simp [scalarTruthy, scalarLtNat, scalarToNumber, hlt]

/-- A concrete stand-in HMAC used to instantiate the abstract `hmac`
parameter in witnesses: constant, dot-free. -/
def hmacConst : List Char → List Char → List Char := fun _ _ => "SIG".data

/-- A concrete stand-in HMAC whose output depends on the secret (used where a
witness needs two secrets with different signatures). -/
def hmacBySecret : List Char → List Char → List Char :=
  fun _ s => if s = "sekB".data then "B".data else "A".data

theorem hmacConst_dotfree : ∀ d s, '.' ∉ hmacConst d s := by
  intro d s
  show '.' ∉ "SIG".data
  decide

theorem hmacBySecret_dotfree : ∀ d s, '.' ∉ hmacBySecret d s := by
  intro d s
  show '.' ∉ (if s = "sekB".data then "B".data else "A".data)
  by_cases h : s = "sekB".data
  · rw [if_pos h]
    decide
  · rw [if_neg h]
    decide

/-- C1.  Round-trip: for every claims mapping `C` (well-formed for the
modelled JSON fragment), every duration string `D` and every secret, verifying
the token issued under the same secret at the same clock time returns the
claims object `{ ...C, iat: now, exp: now + parsed duration }`: every key of
`C` other than `iat`/`exp` is preserved with unchanged value, `iat` equals the
issuance time, and `exp` equals `iat` plus the parsed duration. -/
theorem C1_issue_verify_roundtrip (hmac : List Char → List Char → List Char)
    (hdot : ∀ d s, '.' ∉ hmac d s)
    (C : List (List Char × JScalar)) (hwf : wfMembers C = true)
    (secret D : List Char) (now : Nat) :
    verifyToken hmac (.jstr (generateToken hmac C secret D now)) secret now
        = some (.jobj (buildClaims C now (calculateExpiration now D)))
    ∧ (∀ k v, k ≠ "iat".data → k ≠ "exp".data → jsGet C k = some v →
        jsGet (buildClaims C now (calculateExpiration now D)) k = some v)
    ∧ jsGet (buildClaims C now (calculateExpiration now D)) "iat".data = some (.snum now)
    ∧ jsGet (buildClaims C now (calculateExpiration now D)) "exp".data
        = some (.snum (calculateExpiration now D))
    ∧ calculateExpiration now D = now + calculateExpiration 0 D := by
  refine ⟨?_,
    fun k v h1 h2 hv => by rw [jsGet_buildClaims_other C _ _ k h1 h2]; exact hv,
    jsGet_buildClaims_iat C _ _, jsGet_buildClaims_exp C _ _, calculateExpiration_shift now D⟩
  have hgen : generateToken hmac C secret D now
      = base64UrlEncode (jsonStringify jwtHeader) ++ '.'
          :: base64UrlEncode
            (jsonStringify (.jobj (buildClaims C now (calculateExpiration now D))))
          ++ '.'
          :: hmac
            (base64UrlEncode (jsonStringify jwtHeader) ++ '.'
              :: base64UrlEncode
                (jsonStringify (.jobj (buildClaims C now (calculateExpiration now D)))))
            secret := rfl
  rw [hgen, verifyToken_wellformed hmac _ (base64UrlEncode_not_mem_dot _) _
    (wfMembers_buildClaims C now _ hwf) secret now _ rfl (hdot _ _)]
  exact expiryGate_fresh _ now (calculateExpiration now D)
    (jsGet_buildClaims_exp C now _) (calculateExpiration_ge now D)

/-- Witness for C1 at a concrete instance. -/
theorem C1_issue_verify_roundtrip_witness :
    verifyToken hmacConst
        (.jstr (generateToken hmacConst [("userId".data, .sstr "u1".data)]
          "sek".data "7d".data 1000))
        "sek".data 1000
      = some (.jobj (buildClaims [("userId".data, .sstr "u1".data)] 1000 605800)) := by
  have h := (C1_issue_verify_roundtrip hmacConst hmacConst_dotfree
    [("userId".data, .sstr "u1".data)] (by decide) "sek".data "7d".data 1000).1
  rw [show calculateExpiration 1000 "7d".data = 605800 from by decide] at h
  exact h

/-- C6.  Claims integrity on issuance: for every caller-supplied payload —
including one that already contains `iat` and/or `exp` — the claim set built
by `generateToken` carries `iat = now` and `exp = now + parsed duration` (the
spread-then-assign merge always overwrites caller-supplied `iat`/`exp`), and
the token's encoded payload segment is exactly the serialization of that
overwritten claim set. -/
theorem C6_claims_integrity :
    (∀ (payload : List (List Char × JScalar)) (now : Nat) (D : List Char),
        jsGet (buildClaims payload now (calculateExpiration now D)) "iat".data
            = some (.snum now)
        ∧ jsGet (buildClaims payload now (calculateExpiration now D)) "exp".data
            = some (.snum (calculateExpiration now D))
        ∧ calculateExpiration now D = now + calculateExpiration 0 D)
    ∧ (∀ (hmac : List Char → List Char → List Char) (payload : List (List Char × JScalar))
        (secret D : List Char) (now : Nat),
        generateToken hmac payload secret D now
          = base64UrlEncode (jsonStringify jwtHeader) ++ '.'
              :: base64UrlEncode
                (jsonStringify (.jobj (buildClaims payload now (calculateExpiration now D))))
              ++ '.'
              :: createSignature hmac
                (base64UrlEncode (jsonStringify jwtHeader) ++ '.'
                  :: base64UrlEncode
                    (jsonStringify
                      (.jobj (buildClaims payload now (calculateExpiration now D)))))
                secret)
    ∧ (∀ (payload : List (List Char × JScalar)) (now : Nat) (D : List Char),
        wfMembers payload = true →
        jsonParse (base64UrlDecode (base64UrlEncode
            (jsonStringify (.jobj (buildClaims payload now (calculateExpiration now D))))))
          = some (.jobj (buildClaims payload now (calculateExpiration now D)))) := by
  refine ⟨fun payload now D => ⟨jsGet_buildClaims_iat payload _ _,
    jsGet_buildClaims_exp payload _ _, calculateExpiration_shift now D⟩,
    fun hmac payload secret D now => rfl,
    fun payload now D hwf => ?_⟩
  have hwf' := wfMembers_buildClaims payload now (calculateExpiration now D) hwf
  rw [base64Url_ascii_roundtrip _ (jsonStringify_obj_ascii _ hwf'),
    jsonParse_jsonStringify_obj _ hwf']

/-- Witness for C6 at a concrete instance: a caller-forged `exp` (and `iat`)
is overwritten. -/
theorem C6_claims_integrity_witness :
    jsGet (buildClaims [("exp".data, .snum 99), ("iat".data, .snum 7)] 1000
        (calculateExpiration 1000 "7d".data)) "iat".data = some (.snum 1000)
    ∧ jsGet (buildClaims [("exp".data, .snum 99), ("iat".data, .snum 7)] 1000
        (calculateExpiration 1000 "7d".data)) "exp".data = some (.snum 605800)
    ∧ jsonParse (base64UrlDecode (base64UrlEncode
        (jsonStringify (.jobj (buildClaims [("exp".data, .snum 99), ("iat".data, .snum 7)]
          1000 (calculateExpiration 1000 "7d".data))))))
      = some (.jobj (buildClaims [("exp".data, .snum 99), ("iat".data, .snum 7)] 1000
          (calculateExpiration 1000 "7d".data))) := by
  have h1 := (C6_claims_integrity.1 [("exp".data, .snum 99), ("iat".data, .snum 7)]
    1000 "7d".data)
  have h3 := C6_claims_integrity.2.2 [("exp".data, .snum 99), ("iat".data, .snum 7)]
    1000 "7d".data (by decide)
  refine ⟨h1.1, ?_, h3⟩
  rw [show calculateExpiration 1000 "7d".data = 605800 from by decide] at h1
  exact h1.2.1

/-- C7.  Duration parsing: a string of shape `<digits><unit>` with unit in
`{s, m, h, d}` adds exactly `value * multiplier` (s=1, m=60, h=3600, d=86400)
to `now`; `"7d"` adds exactly 604800; every string not of that shape silently
adds the 24-hour default 86400. -/
theorem C7_duration_parsing :
    (∀ (now : Nat) (ds : List Char) (u : Char), ds ≠ [] →
        (∀ c ∈ ds, c.isDigit = true) → (u = 's' ∨ u = 'm' ∨ u = 'h' ∨ u = 'd') →
        calculateExpiration now (ds ++ [u]) = now + digitsVal ds * multOf u)
    ∧ multOf 's' = 1 ∧ multOf 'm' = 60 ∧ multOf 'h' = 3600 ∧ multOf 'd' = 86400
    ∧ (∀ now : Nat, calculateExpiration now "7d".data = now + 604800)
    ∧ (∀ (now : Nat) (s : List Char),
        (∀ ds u, s = ds ++ [u] → ds ≠ [] → (∀ c ∈ ds, c.isDigit = true) →
          (u = 's' ∨ u = 'm' ∨ u = 'h' ∨ u = 'd') → False) →
        calculateExpiration now s = now + 86400) := by
  have hmatch : ∀ (ds : List Char) (u : Char), ds ≠ [] →
      (∀ c ∈ ds, c.isDigit = true) → (u = 's' ∨ u = 'm' ∨ u = 'h' ∨ u = 'd') →
      durMatch (ds ++ [u]) = some (digitsVal ds, u) := by
    intro ds u hne hdig hu
    unfold durMatch
    rw [List.getLast?_concat, List.dropLast_concat]
    show (if ds ≠ [] ∧ ds.all Char.isDigit = true ∧ (u = 's' ∨ u = 'm' ∨ u = 'h' ∨ u = 'd')
        then some (digitsVal ds, u) else none) = some (digitsVal ds, u)
    rw [if_pos ⟨hne, List.all_eq_true.mpr hdig, hu⟩]
  refine ⟨?_, rfl, rfl, rfl, rfl, ?_, ?_⟩
  · intro now ds u hne hdig hu
    unfold calculateExpiration
    rw [hmatch ds u hne hdig hu]
  · intro now
    have h := hmatch ['7'] 'd' (by decide) (by decide) (by decide)
    unfold calculateExpiration
    rw [show ("7d".data : List Char) = ['7'] ++ ['d'] from rfl, h]
    show now + digitsVal ['7'] * multOf 'd' = now + 604800
    rw [show digitsVal ['7'] * multOf 'd' = 604800 from by decide]
  · intro now s hno
    have hnone : durMatch s = none := by
      unfold durMatch
      cases hs : s.getLast? with
      | none => rfl
      | some u =>
          have hsne : s ≠ [] := by
            intro h
            subst h
            simp at hs
          have hrec : s.dropLast ++ [u] = s := by
            have hval := List.dropLast_append_getLast hsne
            have : u = s.getLast hsne := by
              rw [List.getLast?_eq_getLast s hsne] at hs
              injection hs with hs
              exact hs.symm
            rw [this, hval]
          show (if s.dropLast ≠ [] ∧ s.dropLast.all Char.isDigit = true
              ∧ (u = 's' ∨ u = 'm' ∨ u = 'h' ∨ u = 'd')
              then some (digitsVal s.dropLast, u) else none) = none
          rw [if_neg]
          intro hcond
          exact hno s.dropLast u hrec.symm hcond.1
            (fun c hc => List.all_eq_true.mp hcond.2.1 c hc) hcond.2.2
    unfold calculateExpiration
    rw [hnone]

/-- Witness for C7: `"7d"` parses via the grammar; `"bogus"` falls back to the
24-hour default. -/
theorem C7_duration_parsing_witness :
    calculateExpiration 0 (['7'] ++ ['d']) = 0 + digitsVal ['7'] * multOf 'd'
    ∧ calculateExpiration 5 "bogus".data = 5 + 86400 := by
  refine ⟨C7_duration_parsing.1 0 ['7'] 'd' (by decide) (by decide) (by decide), ?_⟩
  apply C7_duration_parsing.2.2.2.2.2.2
  intro ds u he hne hdig hu
  have hdrop : ds = "bogu".data := by
    have h := congrArg List.dropLast he
    rw [List.dropLast_concat] at h
    rw [show ("bogus".data).dropLast = "bogu".data from by decide] at h
    exact h.symm
  exact absurd (hdig 'b' (by rw [hdrop]; decide)) (by decide)

/-- C8.  Bearer extraction: `extract_bearer` returns a token exactly when the
input is a string splitting on single spaces into exactly two components whose
first is the case-sensitive literal `Bearer`; `bearer ...`, `Basic ...`,
non-strings and `null` all yield none. -/
theorem C8_extract_bearer :
    (∀ (v : JVal) (t : List Char),
        extractTokenFromHeader v = some t
          ↔ ∃ s, v = .jstr s ∧ splitCh ' ' s = ["Bearer".data, t])
    ∧ extractTokenFromHeader (.jstr "Bearer abc.def.ghi".data) = some "abc.def.ghi".data
    ∧ extractTokenFromHeader (.jstr "bearer abc.def.ghi".data) = none
    ∧ extractTokenFromHeader (.jstr "Basic xyz".data) = none
    ∧ extractTokenFromHeader .jnull = none := by
  refine ⟨?_, by decide, by decide, by decide, rfl⟩
  intro v t
  constructor
  · intro h
    cases v with
    | jstr s =>
        refine ⟨s, rfl, ?_⟩
        rw [extractTokenFromHeader_jstr] at h
        unfold extractTokenFromHeaderStr at h
        by_cases hs : s = []
        · rw [if_pos hs] at h
          exact absurd h (by simp)
        · rw [if_neg hs] at h
          rcases hsp : splitCh ' ' s with _ | ⟨a, _ | ⟨b, _ | ⟨c, rest⟩⟩⟩ <;> rw [hsp] at h
          · exact absurd h (by simp)
          · exact absurd h (by simp)
          · change (if a = "Bearer".data then some b else none) = some t at h
            by_cases hb : a = "Bearer".data
            · rw [if_pos hb] at h
              injection h with h
              rw [hb, h]
            · rw [if_neg hb] at h
              exact absurd h (by simp)
          · exact absurd h (by simp)
    | jnull => exact absurd h (by simp [extractTokenFromHeader])
    | jbool b => exact absurd h (by simp [extractTokenFromHeader])
    | jnum n => exact absurd h (by simp [extractTokenFromHeader])
    | jobj kvs => exact absurd h (by simp [extractTokenFromHeader])
  · rintro ⟨s, rfl, hsp⟩
    have hs : s ≠ [] := by
      intro h
      subst h
      rw [show splitCh ' ' ([] : List Char) = [[]] from rfl] at hsp
      simp at hsp
    rw [extractTokenFromHeader_jstr]
    unfold extractTokenFromHeaderStr
    rw [if_neg hs, hsp]
    show (if "Bearer".data = "Bearer".data then some t else none) = some t
    rw [if_pos rfl]

/-- C9.  Credential hasher: verification deterministically recomputes the
PBKDF2 digest from `(secret, salt)` with the same parameters used at hash time
(10000 iterations, 64-byte key, SHA-512, hex) and returns true exactly when it
equals the stored digest; in particular it accepts the output of the same
`hash` call.  Mismatch is an ordinary `false`, never a fault (the function is
total). -/
theorem C9_password_hashing :
    ∀ (pbkdf2 : List Char → List Char → Nat → Nat → List Char → List Char)
      (password saltHex hash salt : List Char),
      verifyPassword pbkdf2 password (hashPassword pbkdf2 password saltHex).1
          (hashPassword pbkdf2 password saltHex).2 = true
      ∧ (verifyPassword pbkdf2 password hash salt = true
          ↔ hash = pbkdf2 password salt 10000 64 "sha512".data) := by
  intro pbkdf2 password saltHex hash salt
  constructor
  · simp [verifyPassword, hashPassword]
  · simp [verifyPassword]

theorem verifyToken_sig_mismatch (hmac : List Char → List Char → List Char)
    (t secret : List Char) (now : Nat) (a b c : List Char)
    (h3 : splitCh '.' t = [a, b, c]) (hne : c ≠ hmac (a ++ '.' :: b) secret) :
    verifyToken hmac (.jstr t) secret now = none := by
  have ht : t ≠ [] := by
    intro h
    subst h
    rw [show splitCh '.' ([] : List Char) = [[]] from rfl] at h3
    simp at h3
  rw [verifyToken_jstr]
  unfold verifyTokenStr
  rw [if_neg ht, h3]
  simp [createSignature, hne]

/-- C3.  Signature integrity and secret isolation: verification succeeds only
when the third dot-segment equals the HMAC of the first two under the
verification secret; consequently a token issued under `secretB` fails under
`secretA` whenever the two HMAC values differ. -/
theorem C3_signature_integrity (hmac : List Char → List Char → List Char) :
    (∀ (t secret : List Char) (now : Nat) (r : JVal),
        verifyToken hmac (.jstr t) secret now = some r →
        ∃ a b c, splitCh '.' t = [a, b, c]
          ∧ c = createSignature hmac (a ++ '.' :: b) secret)
    ∧ (∀ (hdot : ∀ d s, '.' ∉ hmac d s) (C : List (List Char × JScalar))
        (secretA secretB D : List Char) (now now' : Nat),
        hmac (base64UrlEncode (jsonStringify jwtHeader) ++ '.' ::
            base64UrlEncode (jsonStringify (.jobj (buildClaims C now
              (calculateExpiration now D))))) secretA
          ≠ hmac (base64UrlEncode (jsonStringify jwtHeader) ++ '.' ::
            base64UrlEncode (jsonStringify (.jobj (buildClaims C now
              (calculateExpiration now D))))) secretB →
        verifyToken hmac (.jstr (generateToken hmac C secretB D now)) secretA now' = none) := by
  constructor
  · intro t secret now r h
    by_cases ht : t = []
    · subst ht
      rw [verifyToken_jstr] at h
      unfold verifyTokenStr at h
      rw [if_pos rfl] at h
      exact absurd h (by simp)
    · rcases hsp : splitCh '.' t with _ | ⟨a, _ | ⟨b, _ | ⟨c, _ | rest⟩⟩⟩
      · rw [verifyToken_jstr] at h
        unfold verifyTokenStr at h
        rw [if_neg ht, hsp] at h
        simp at h
      · rw [verifyToken_jstr] at h
        unfold verifyTokenStr at h
        rw [if_neg ht, hsp] at h
        simp at h
      · rw [verifyToken_jstr] at h
        unfold verifyTokenStr at h
        rw [if_neg ht, hsp] at h
        simp at h
      · by_cases hc : c = createSignature hmac (a ++ '.' :: b) secret
        · exact ⟨a, b, c, hsp ▸ rfl, hc⟩
        · rw [verifyToken_sig_mismatch hmac t secret now a b c hsp hc] at h
          exact absurd h (by simp)
      · rw [verifyToken_jstr] at h
        unfold verifyTokenStr at h
        rw [if_neg ht, hsp] at h
        simp at h
  · intro hdot C secretA secretB D now now' hne
    have hgen : generateToken hmac C secretB D now
        = base64UrlEncode (jsonStringify jwtHeader) ++ '.'
            :: base64UrlEncode
              (jsonStringify (.jobj (buildClaims C now (calculateExpiration now D))))
            ++ '.'
            :: hmac
              (base64UrlEncode (jsonStringify jwtHeader) ++ '.'
                :: base64UrlEncode
                  (jsonStringify (.jobj (buildClaims C now (calculateExpiration now D)))))
              secretB := rfl
    rw [hgen]
    exact verifyToken_sig_mismatch hmac _ secretA now' _ _ _
      (splitCh_three '.' _ _ _ (base64UrlEncode_not_mem_dot _)
        (base64UrlEncode_not_mem_dot _) (hdot _ _))
      (Ne.symm hne)

/-- Witness for C3: a concrete verified token satisfies the signature
equation, and a token issued under `sekB` is rejected under `sekA` for an
HMAC separating the two secrets. -/
theorem C3_signature_integrity_witness :
    (∃ a b c,
        splitCh '.' (generateToken hmacConst [("userId".data, .sstr "u1".data)]
            "sek".data "7d".data 1000) = [a, b, c]
          ∧ c = createSignature hmacConst (a ++ '.' :: b) "sek".data)
    ∧ verifyToken hmacBySecret
        (.jstr (generateToken hmacBySecret [("userId".data, .sstr "u1".data)]
          "sekB".data "7d".data 1000))
        "sekA".data 1000 = none := by
  constructor
  · exact (C3_signature_integrity hmacConst).1 _ "sek".data 1000
      (.jobj (buildClaims [("userId".data, .sstr "u1".data)] 1000 605800)) (by decide)
  · exact (C3_signature_integrity hmacBySecret).2 hmacBySecret_dotfree
      [("userId".data, .sstr "u1".data)] "sekA".data "sekB".data "7d".data 1000 1000
      (by decide)

/-- A concrete well-signed (for `hmacConst`) token whose claims are
`{ exp: 0 }`. -/
def expZeroToken : List Char :=
  "aaa".data ++ '.' :: base64UrlEncode (jsonStringify (.jobj [("exp".data, .snum 0)]))
    ++ '.' :: "SIG".data

/-- Counterexample to C4 as stated: this token is well-signed under
`hmacConst` and `"sek"`, its decoded claims contain `expires_at = 0`, the
clock `1` is strictly past it — yet verification returns the claims, because
`0` is falsy and the guard `payload.exp && payload.exp < now` skips the
comparison.  So "returns the invalid sentinel when `expires_at` is strictly
less than `t`" fails for every token that contains a zero `exp`. -/
theorem C4_expiry_counterexample :
    splitCh '.' expZeroToken
      = ["aaa".data, base64UrlEncode (jsonStringify (.jobj [("exp".data, .snum 0)])),
          "SIG".data]
    ∧ "SIG".data = createSignature hmacConst ("aaa".data ++ '.' ::
        base64UrlEncode (jsonStringify (.jobj [("exp".data, .snum 0)]))) "sek".data
    ∧ jsonParse (base64UrlDecode
        (base64UrlEncode (jsonStringify (.jobj [("exp".data, .snum 0)]))))
      = some (.jobj [("exp".data, .snum 0)])
    ∧ jsGet [("exp".data, (.snum 0 : JScalar))] "exp".data = some (.snum 0)
    ∧ ((0 : Int) < 1)
    ∧ verifyToken hmacConst (.jstr expZeroToken) "sek".data 1
      = some (.jobj [("exp".data, .snum 0)]) :=
  ⟨by decide, by decide, by decide, by decide, by decide, by decide⟩

/-- C4 amended.  Expiry semantics for a *truthy, numeric* `expires_at`: a
well-signed token whose claims carry `exp = e` with `e ≠ 0` verifies to its
claims when `now ≤ e` (in particular exactly at the expiry instant) and to the
invalid sentinel when `e < now`; and a token issued with duration `"1s"`
verifies immediately but is invalid once the clock has advanced 2 seconds.
(Tokens with a falsy `exp` — `0` or `null` — are exempt: see the
no-expiry behaviour of C10.) -/
theorem C4_expiry_amended :
    (∀ (hmac : List Char → List Char → List Char) (eh sig : List Char)
        (kvs : List (List Char × JScalar)) (secret : List Char) (now : Nat) (e : Int),
        '.' ∉ eh → wfMembers kvs = true →
        sig = hmac (eh ++ '.' :: base64UrlEncode (jsonStringify (.jobj kvs))) secret →
        '.' ∉ sig →
        jsGet kvs "exp".data = some (.snum e) → e ≠ 0 →
        (((now : Int) ≤ e) →
          verifyToken hmac
            (.jstr (eh ++ '.' :: base64UrlEncode (jsonStringify (.jobj kvs)) ++ '.' :: sig))
            secret now = some (.jobj kvs))
        ∧ ((e < (now : Int)) →
          verifyToken hmac
            (.jstr (eh ++ '.' :: base64UrlEncode (jsonStringify (.jobj kvs)) ++ '.' :: sig))
            secret now = none))
    ∧ (∀ (hmac : List Char → List Char → List Char) (hdot : ∀ d s, '.' ∉ hmac d s)
        (C : List (List Char × JScalar)) (hwf : wfMembers C = true)
        (secret : List Char) (t : Nat),
        verifyToken hmac (.jstr (generateToken hmac C secret "1s".data t)) secret t
          = some (.jobj (buildClaims C t (t + 1)))
        ∧ verifyToken hmac (.jstr (generateToken hmac C secret "1s".data t)) secret (t + 2)
          = none) := by
  have hc1 : ∀ t : Nat, calculateExpiration t "1s".data = t + 1 := by
    intro t
    unfold calculateExpiration
    rw [show durMatch "1s".data = some (1, 's') from by decide]
    show t + 1 * multOf 's' = t + 1
    rw [show (1 : Nat) * multOf 's' = 1 from by decide]
  constructor
  · intro hmac eh sig kvs secret now e heh hwf hsig hsd hexp hne
    constructor
    · intro hle
      rw [verifyToken_wellformed hmac eh heh kvs hwf secret now sig hsig hsd]
      unfold expiryGate
      rw [hexp]
      have hlt : ¬(e < (now : Int)) := by omega
      simp [scalarTruthy, scalarLtNat, scalarToNumber, hlt]
    · intro hlt
      rw [verifyToken_wellformed hmac eh heh kvs hwf secret now sig hsig hsd]
      unfold expiryGate
      rw [hexp]
      simp [scalarTruthy, scalarLtNat, scalarToNumber, hne, hlt]
  · intro hmac hdot C hwf secret t
    have hgen : generateToken hmac C secret "1s".data t
        = base64UrlEncode (jsonStringify jwtHeader) ++ '.'
            :: base64UrlEncode
              (jsonStringify (.jobj (buildClaims C t (calculateExpiration t "1s".data))))
            ++ '.'
            :: hmac
              (base64UrlEncode (jsonStringify jwtHeader) ++ '.'
                :: base64UrlEncode
                  (jsonStringify
                    (.jobj (buildClaims C t (calculateExpiration t "1s".data)))))
              secret := rfl
    constructor
    · rw [← hc1 t]
      rw [hgen, verifyToken_wellformed hmac _ (base64UrlEncode_not_mem_dot _) _
        (wfMembers_buildClaims C t _ hwf) secret t _ rfl (hdot _ _)]
      exact expiryGate_fresh _ t (calculateExpiration t "1s".data)
        (jsGet_buildClaims_exp C t _) (calculateExpiration_ge t "1s".data)
    · rw [hgen, verifyToken_wellformed hmac _ (base64UrlEncode_not_mem_dot _) _
        (wfMembers_buildClaims C t _ hwf) secret (t + 2) _ rfl (hdot _ _)]
      unfold expiryGate
      rw [jsGet_buildClaims_exp C t _, hc1 t]
      have hne : ((t + 1 : Nat) : Int) ≠ 0 := by omega
      have hlt : ((t + 1 : Nat) : Int) < ((t + 2 : Nat) : Int) := by omega
      simp [scalarTruthy, scalarLtNat, scalarToNumber, hne, hlt]
      omega

/-- Witness for the amended C4 at concrete instances: a token with `exp = 5`
is accepted at clock 5 (the expiry instant) and rejected at clock 6; a `"1s"`
token verifies at issuance and fails 2 seconds later. -/
theorem C4_expiry_amended_witness :
    verifyToken hmacConst
        (.jstr ("aaa".data ++ '.' :: base64UrlEncode (jsonStringify
          (.jobj [("exp".data, .snum 5)])) ++ '.' :: "SIG".data)) "sek".data 5
      = some (.jobj [("exp".data, .snum 5)])
    ∧ verifyToken hmacConst
        (.jstr ("aaa".data ++ '.' :: base64UrlEncode (jsonStringify
          (.jobj [("exp".data, .snum 5)])) ++ '.' :: "SIG".data)) "sek".data 6
      = none
    ∧ verifyToken hmacConst
        (.jstr (generateToken hmacConst [("userId".data, .sstr "u1".data)]
          "sek".data "1s".data 1000)) "sek".data 1000
      = some (.jobj (buildClaims [("userId".data, .sstr "u1".data)] 1000 1001))
    ∧ verifyToken hmacConst
        (.jstr (generateToken hmacConst [("userId".data, .sstr "u1".data)]
          "sek".data "1s".data 1000)) "sek".data 1002
      = none := by
  have h1 := C4_expiry_amended.1 hmacConst "aaa".data "SIG".data
    [("exp".data, .snum 5)] "sek".data 5 5 (by decide) (by decide) (by decide) (by decide)
    (by decide) (by decide)
  have h2 := C4_expiry_amended.1 hmacConst "aaa".data "SIG".data
    [("exp".data, .snum 5)] "sek".data 6 5 (by decide) (by decide) (by decide) (by decide)
    (by decide) (by decide)
  have h3 := C4_expiry_amended.2 hmacConst hmacConst_dotfree
    [("userId".data, .sstr "u1".data)] (by decide) "sek".data 1000
  exact ⟨h1.1 (by decide), h2.2 (by decide), h3.1, h3.2⟩

/-- C10.  Implicit no-expiry behaviour: a well-signed token whose decoded
claims lack `exp` or carry a falsy `exp` (such as `0` or `null`) verifies to
its claims at every clock value — the guard `payload.exp && payload.exp < now`
skips the freshness comparison entirely, so such a token never expires. -/
theorem C10_no_expiry_accepted :
    ∀ (hmac : List Char → List Char → List Char) (eh sig : List Char)
      (kvs : List (List Char × JScalar)) (secret : List Char),
      '.' ∉ eh → wfMembers kvs = true →
      sig = hmac (eh ++ '.' :: base64UrlEncode (jsonStringify (.jobj kvs))) secret →
      '.' ∉ sig →
      (jsGet kvs "exp".data = none
        ∨ ∃ e, jsGet kvs "exp".data = some e ∧ scalarTruthy e = false) →
      ∀ now : Nat,
        verifyToken hmac
          (.jstr (eh ++ '.' :: base64UrlEncode (jsonStringify (.jobj kvs)) ++ '.' :: sig))
          secret now = some (.jobj kvs) := by
  intro hmac eh sig kvs secret heh hwf hsig hsd hfalsy now
  rw [verifyToken_wellformed hmac eh heh kvs hwf secret now sig hsig hsd]
  unfold expiryGate
  rcases hfalsy with h | ⟨e, hget, hfal⟩
  · rw [h]
  · rw [hget]
    simp [hfal]

/-- Witness for C10: a token without `exp`, one with `exp = 0` and one with
`exp = null` are all accepted at a large clock value. -/
theorem C10_no_expiry_accepted_witness :
    verifyToken hmacConst
        (.jstr ("aaa".data ++ '.' :: base64UrlEncode (jsonStringify
          (.jobj [("role".data, .sstr "admin".data)])) ++ '.' :: "SIG".data))
        "sek".data 999999999 = some (.jobj [("role".data, .sstr "admin".data)])
    ∧ verifyToken hmacConst
        (.jstr ("aaa".data ++ '.' :: base64UrlEncode (jsonStringify
          (.jobj [("exp".data, .snum 0)])) ++ '.' :: "SIG".data))
        "sek".data 999999999 = some (.jobj [("exp".data, .snum 0)])
    ∧ verifyToken hmacConst
        (.jstr ("aaa".data ++ '.' :: base64UrlEncode (jsonStringify
          (.jobj [("exp".data, .snull)])) ++ '.' :: "SIG".data))
        "sek".data 999999999 = some (.jobj [("exp".data, .snull)]) := by
  refine ⟨?_, ?_, ?_⟩
  · exact C10_no_expiry_accepted hmacConst "aaa".data "SIG".data
      [("role".data, .sstr "admin".data)] "sek".data (by decide) (by decide) (by decide)
      (by decide) (Or.inl (by decide)) 999999999
  · exact C10_no_expiry_accepted hmacConst "aaa".data "SIG".data
      [("exp".data, .snum 0)] "sek".data (by decide) (by decide) (by decide)
      (by decide) (Or.inr ⟨.snum 0, by decide, by decide⟩) 999999999
  · exact C10_no_expiry_accepted hmacConst "aaa".data "SIG".data
      [("exp".data, .snull)] "sek".data (by decide) (by decide) (by decide)
      (by decide) (Or.inr ⟨.snull, by decide, by decide⟩) 999999999

/-- C5.  Verification totality: `verifyToken` is a total function of its
input (the `try/catch` never lets an exception escape — in the embedding it
returns an `Option` everywhere), and it returns the `none` sentinel on every
listed failure class: non-string input, a string whose dot-split does not have
exactly three segments, a third segment differing from the recomputed
signature, and a payload segment that does not parse as JSON after base64url
decoding. -/
theorem C5_verify_totality (hmac : List Char → List Char → List Char)
    (secret : List Char) (now : Nat) :
    (∀ v : JVal, (∀ s, v ≠ .jstr s) → verifyToken hmac v secret now = none)
    ∧ (∀ t : List Char, (splitCh '.' t).length ≠ 3 →
        verifyToken hmac (.jstr t) secret now = none)
    ∧ (∀ (t a b c : List Char), splitCh '.' t = [a, b, c] →
        c ≠ createSignature hmac (a ++ '.' :: b) secret →
        verifyToken hmac (.jstr t) secret now = none)
    ∧ (∀ (t a b c : List Char), splitCh '.' t = [a, b, c] →
        c = createSignature hmac (a ++ '.' :: b) secret →
        jsonParse (base64UrlDecode b) = none →
        verifyToken hmac (.jstr t) secret now = none) := by
  refine ⟨?_, ?_, ?_, ?_⟩
  · intro v hv
    cases v with
    | jstr s => exact absurd rfl (hv s)
    | jnull => rfl
    | jbool b => rfl
    | jnum n => rfl
    | jobj kvs => rfl
  · intro t hlen
    by_cases ht : t = []
    · subst ht
      rw [verifyToken_jstr]
      unfold verifyTokenStr
      rw [if_pos rfl]
    · rw [verifyToken_jstr]
      unfold verifyTokenStr
      rw [if_neg ht]
      rcases hsp : splitCh '.' t with _ | ⟨a, _ | ⟨b, _ | ⟨c, _ | rest⟩⟩⟩
      · rfl
      · rfl
      · rfl
      · rw [hsp] at hlen
        simp at hlen
      · rfl
  · intro t a b c hsp hne
    exact verifyToken_sig_mismatch hmac t secret now a b c hsp hne
  · intro t a b c hsp heq hparse
    have ht : t ≠ [] := by
      intro h
      subst h
      rw [show splitCh '.' ([] : List Char) = [[]] from rfl] at hsp
      simp at hsp
    rw [verifyToken_jstr]
    unfold verifyTokenStr
    rw [if_neg ht, hsp]
    simp [createSignature] at heq
    simp [createSignature, heq, hparse]

/-- Witness for C5 at concrete inputs from each failure class. -/
theorem C5_verify_totality_witness :
    verifyToken hmacConst (.jnum 5) "sek".data 0 = none
    ∧ verifyToken hmacConst (.jstr "abc".data) "sek".data 0 = none
    ∧ verifyToken hmacConst (.jstr "a.b.c".data) "sek".data 0 = none
    ∧ verifyToken hmacConst (.jstr "a.b.SIG".data) "sek".data 0 = none := by
  refine ⟨?_, ?_, ?_, ?_⟩
  · exact (C5_verify_totality hmacConst "sek".data 0).1 (.jnum 5) (by intro s h; cases h)
  · exact (C5_verify_totality hmacConst "sek".data 0).2.1 "abc".data (by decide)
  · exact (C5_verify_totality hmacConst "sek".data 0).2.2.1 "a.b.c".data
      "a".data "b".data "c".data (by decide) (by decide)
  · exact (C5_verify_totality hmacConst "sek".data 0).2.2.2 "a.b.SIG".data
      "a".data "b".data "SIG".data (by decide) (by decide) (by decide)

/-- Counterexample to C2 as stated: at the authorization gate, a request
whose signing-secret fetch fails (the AWS call throws) produces exactly the
same undifferentiated `unauthorized` outcome as a request whose token is
merely invalid under a successfully fetched secret — the authorizer's
catch-all converts the propagated fetch fault into `Error("Unauthorized")`
instead of surfacing it as a distinct 5xx-class fault. -/
theorem C2_fault_propagation_counterexample :
    authorize hmacConst (.jstr "Bearer aaa.bbb.ccc".data) (some "jwt".data) []
        (.error "getaddrinfo ENOTFOUND secretsmanager".data) 0
      = .unauthorized
    ∧ authorize hmacConst (.jstr "Bearer aaa.bbb.ccc".data) (some "jwt".data) []
        (.ok (some "\x7b\"jwtSecret\":\"k\"\x7d".data)) 0
      = .unauthorized
    ∧ authorize hmacConst (.jstr "Bearer aaa.bbb.ccc".data) (some "jwt".data) []
        (.error "getaddrinfo ENOTFOUND secretsmanager".data) 0
      = authorize hmacConst (.jstr "Bearer aaa.bbb.ccc".data) (some "jwt".data) []
          (.ok (some "\x7b\"jwtSecret\":\"k\"\x7d".data)) 0 :=
  ⟨by decide, by decide, by decide⟩

/-- C2 amended.  When the signing-secret fetch fails, `getSecret` does
propagate the failure to its caller as a thrown error wrapped in
`Failed to retrieve secret: ` (a genuine fault, never the invalid-token
sentinel); but the authorization gate's catch-all converts that fault — like
every other failure — into the same undifferentiated `unauthorized` outcome,
so at the gate a secret-store failure is not distinguishable from token
invalidity. -/
theorem C2_fault_propagation_amended :
    (∀ (cache : List (List Char × JVal)) (name e : List Char),
        cacheGet cache name = none →
        getSecret cache name (.error e)
          = .error ("Failed to retrieve secret: ".data ++ e))
    ∧ (∀ (hmac : List Char → List Char → List Char) (hdr : JVal) (tok : List Char)
        (name : List Char) (cache : List (List Char × JVal)) (e : List Char) (now : Nat),
        extractTokenFromHeader hdr = some tok →
        cacheGet cache name = none →
        authorize hmac hdr (some name) cache (.error e) now = .unauthorized) := by
  constructor
  · intro cache name e hmiss
    unfold getSecret
    rw [hmiss]
    rfl
  · intro hmac hdr tok name cache e now hext hmiss
    by_cases hn : name = []
    · subst hn
      unfold authorize
      rw [hext]
      rfl
    · have hgs : getSecret cache name (.error e)
          = .error ("Failed to retrieve secret: ".data ++ e) := by
        unfold getSecret
        rw [hmiss]
        rfl
      have hjs : getJWTSecret (some name) cache (.error e)
          = .error ("Failed to retrieve secret: ".data ++ e) := by
        simp [getJWTSecret, hn, hgs]
      unfold authorize
      rw [hext, hjs]

/-- Witness for the amended C2 at a concrete instance. -/
theorem C2_fault_propagation_amended_witness :
    getSecret [] "jwt".data (.error "timeout".data)
      = .error ("Failed to retrieve secret: ".data ++ "timeout".data)
    ∧ authorize hmacConst (.jstr "Bearer aaa.bbb.ccc".data) (some "jwt".data) []
        (.error "timeout".data) 0 = .unauthorized := by
  constructor
  · exact C2_fault_propagation_amended.1 [] "jwt".data "timeout".data (by decide)
  · exact C2_fault_propagation_amended.2 hmacConst (.jstr "Bearer aaa.bbb.ccc".data)
      "aaa.bbb.ccc".data "jwt".data [] "timeout".data 0 (by decide) (by decide)
